/- Verification development for the crawl frontier and ingestion engine of the
   SUPERSTONK-TRADER repository (src/dd_library_autopilot.py).

   The Python source is embedded shallowly: its pure string helpers become
   executable functions on `List Char` / `String`, the SQLite tables become
   association lists of typed rows, and the pipeline loops become recursive
   functions threading the database state.  Timestamps (now_utc_iso and
   friends) are opaque data to every claim, so they are threaded as plain
   `String` arguments supplied by the environment. -/
import Mathlib

namespace DD

/-- Characters treated as whitespace by Python's str.strip and the regex
class backslash-s, restricted to the ASCII range (exotic Unicode whitespace
is outside the embedding). -/
def pySpace (c : Char) : Bool :=
  c = ' ' || c = '\t' || c = '\n' || c = '\x0d' || c = '\x0b' || c = '\x0c'

/-- Python str.strip (whitespace on both ends) on a character list. -/
def pyStrip (s : List Char) : List Char :=
  ((s.dropWhile pySpace).reverse.dropWhile pySpace).reverse

/-- Python substring containment (the `in` operator on str): `p` occurs as a
contiguous run inside `s`. -/
def containsSub (p : List Char) : List Char → Bool
  | [] => p.isEmpty
  | c :: cs => p.isPrefixOf (c :: cs) || containsSub p cs

/-- Fuelled worker for Python str.replace: at each position, if the pattern
matches, emit the replacement and skip the match, else emit one character.
The fuel is an upper bound on the number of emitted positions; it is
structural so that concrete evaluations reduce by rfl. -/
def replaceGo (pat rep : List Char) : Nat → List Char → List Char
  | _, [] => []
  | 0, s => s
  | n + 1, c :: cs =>
    if pat.isPrefixOf (c :: cs) then rep ++ replaceGo pat rep n ((c :: cs).drop pat.length)
    else c :: replaceGo pat rep n cs

/-- Python str.replace (all occurrences, nonempty pattern, left to right). -/
def replaceL (pat rep : List Char) (s : List Char) : List Char :=
  replaceGo pat rep s.length s

def oldD : List Char := "old.reddit.com".data
def wwwD : List Char := "www.reddit.com".data
def httpD : List Char := "http://".data
def httpsD : List Char := "https://".data
def redditD : List Char := "reddit.com".data
def reddItD : List Char := "redd.it".data

/-- Line 75-76 of normalize_reddit_url: upgrade a leading http scheme. -/
def normStep1 (u1 : List Char) : List Char :=
  if httpD.isPrefixOf u1 then httpsD ++ u1.drop httpD.length else u1

/-- Line 77-78 of normalize_reddit_url: rewrite the legacy subdomain. -/
def normStep2 (u2 : List Char) : List Char :=
  if containsSub oldD u2 then replaceL oldD wwwD u2 else u2

/-- Line 79-80 of normalize_reddit_url: prepend the scheme for reddit.com
URLs lacking it. -/
def normStep3 (u3 : List Char) : List Char :=
  if containsSub redditD u3 && ! httpsD.isPrefixOf u3 then httpsD ++ u3 else u3

/-- Embedding of normalize_reddit_url (src/dd_library_autopilot.py lines
73-81) on character lists: strip, upgrade a leading http scheme to https,
rewrite old.reddit.com to www.reddit.com, and prepend https for reddit.com
URLs that lack it. -/
def normList (u : List Char) : List Char :=
  normStep3 (normStep2 (normStep1 (pyStrip u)))

/-- normalize_reddit_url, the String-level wrapper of `normList`. -/
def normalize_reddit_url (u : String) : String := String.mk (normList u.data)

/-! Model of CPython's urllib.parse.urlparse, restricted to what the source
uses: scheme detection, netloc/path/params/query/fragment splitting, and the
ValueError raised for bracketed netlocs (mismatched brackets, or a bracketed
host that is neither a valid IPv6 address nor an IPvFuture literal).  The
Unicode NFKC netloc check, which can only fire on exotic non-ASCII input, is
not modelled. -/

/-- Characters allowed in a URL scheme by urllib (letters, digits, plus,
minus, dot). -/
def schemeChar (c : Char) : Bool :=
  c.isAlpha || c.isDigit || c = '+' || c = '-' || c = '.'

/-- Scheme splitting step of urlsplit: a leading `scheme:` is recognised when
the text before the first colon is nonempty, starts with an ASCII letter and
consists of scheme characters; the scheme is lowercased. -/
def splitScheme (s : List Char) : List Char × List Char :=
  match s.findIdx? (· = ':') with
  | some i =>
    if 0 < i && (s.headD ' ').isAlpha && (s.take i).all schemeChar then
      ((s.take i).map Char.toLower, s.drop (i + 1))
    else ([], s)
  | none => ([], s)

/-- Netloc splitting step of urlsplit (after a leading `//`): the netloc runs
to the first of `/`, `?` or `#`. -/
def netlocSplit (s : List Char) : List Char × List Char :=
  let rest := s.drop 2
  let netloc := rest.takeWhile (fun c => c ≠ '/' && c ≠ '?' && c ≠ '#')
  (netloc, rest.drop netloc.length)

/-- Text between the first `[` and the following `]` of a netloc. -/
def bracketContent (netloc : List Char) : List Char :=
  ((netloc.dropWhile (· ≠ '[')).drop 1).takeWhile (· ≠ ']')

def isHexDigitC (c : Char) : Bool :=
  c.isDigit || ('a' ≤ c && c ≤ 'f') || ('A' ≤ c && c ≤ 'F')

/-- A valid IPv6 hextet: one to four hex digits. -/
def validHextet (p : List Char) : Bool :=
  !p.isEmpty && p.length ≤ 4 && p.all isHexDigitC

def octetVal (p : List Char) : Nat :=
  p.foldl (fun a c => a * 10 + (c.toNat - 48)) 0

/-- A valid IPv4 octet per the ipaddress module: one to three digits, no
leading zero, value at most 255. -/
def validIPv4Octet (p : List Char) : Bool :=
  !p.isEmpty && p.length ≤ 3 && p.all (·.isDigit) &&
    (p.length = 1 || p.headD '0' ≠ '0') && octetVal p ≤ 255

/-- Valid dotted-quad IPv4 text. -/
def validIPv4 (s : List Char) : Bool :=
  let parts := s.splitOn '.'
  parts.length = 4 && parts.all validIPv4Octet

/-- Core IPv6 group validation on the colon-separated parts, following
ipaddress._ip_int_from_string: at most one `::` (an inner empty part), eight
groups without it and at most seven with it, every materialised group a valid
hextet. -/
def validIPv6Core (parts : List (List Char)) : Bool :=
  let n := parts.length
  if n < 3 || 9 < n then false else
  let inner := (List.range n).filter
    (fun i => decide (0 < i) && decide (i < n - 1) && (parts.getD i [' ']).isEmpty)
  match inner with
  | [] =>
    n = 8 && !(parts.getD 0 [' ']).isEmpty && !(parts.getD (n - 1) [' ']).isEmpty &&
      parts.all validHextet
  | [i] =>
    let headEmpty := (parts.getD 0 [' ']).isEmpty
    let lastEmpty := (parts.getD (n - 1) [' ']).isEmpty
    let hi := if headEmpty then i - 1 else i
    let lo := if lastEmpty then n - i - 2 else n - i - 1
    (if headEmpty then i = 1 else true) &&
    (if lastEmpty then i = n - 2 else true) &&
    hi + lo ≤ 7 &&
    (parts.take hi).all validHextet && (parts.drop (n - lo)).all validHextet
  | _ => false

/-- IPv6 group validation of an address without scope id, converting a
trailing dotted-quad part into two dummy hextets as ipaddress does. -/
def validIPv6NoScope (a : List Char) : Bool :=
  let parts := a.splitOn ':'
  match parts.getLast? with
  | none => false
  | some last =>
    if last.contains '.' then
      validIPv4 last && validIPv6Core (parts.dropLast ++ [['0'], ['0']])
    else validIPv6Core parts

/-- Valid IPv6 address text with an optional nonempty `%scope` suffix. -/
def validIPv6Text (s : List Char) : Bool :=
  match s.splitOn '%' with
  | [a] => validIPv6NoScope a
  | [a, sc] => !sc.isEmpty && validIPv6NoScope a
  | _ => false

/-- IPvFuture literal per urllib's check: `v`, one or more hex digits, a dot,
then at least one character none of which is a newline. -/
def validIPvFuture (h : List Char) : Bool :=
  match h with
  | 'v' :: t =>
    let hx := t.takeWhile isHexDigitC
    !hx.isEmpty &&
      (match t.drop hx.length with
       | '.' :: rest => !rest.isEmpty && rest.all (· ≠ '\n')
       | _ => false)
  | _ => false

/-- CPython's _check_bracketed_host as a predicate: IPvFuture literals are
checked by pattern, anything else must be a valid IPv6 address (a bracketed
IPv4 address or garbage raises, i.e. is invalid here). -/
def bracketedHostOk (h : List Char) : Bool :=
  if h.headD ' ' = 'v' then validIPvFuture h else validIPv6Text h

/-- Split at the first occurrence of a character: text before it and text
after it (the whole text and nothing when the character is absent). -/
def splitFirst (c : Char) (s : List Char) : List Char × List Char :=
  if s.contains c then (s.takeWhile (· ≠ c), (s.dropWhile (· ≠ c)).drop 1)
  else (s, [])

/-- urlsplit: returns scheme, netloc, path-with-params, query and fragment,
or none when the netloc bracket validation raises. -/
def pyUrlsplit (s0 : List Char) :
    Option (List Char × List Char × List Char × List Char × List Char) :=
  let s1 := s0.filter (fun c => c ≠ '\t' && c ≠ '\x0d' && c ≠ '\n')
  let (scheme, u1) := splitScheme s1
  let (netloc, u2) :=
    if ['/', '/'].isPrefixOf u1 then netlocSplit u1 else ([], u1)
  if (netloc.contains '[' && !netloc.contains ']') ||
     (netloc.contains ']' && !netloc.contains '[') then none
  else if netloc.contains '[' && netloc.contains ']' &&
          !bracketedHostOk (bracketContent netloc) then none
  else
    let p3 := splitFirst '#' u2
    let p4 := splitFirst '?' p3.1
    some (scheme, netloc, p4.1, p4.2, p3.2)

/-- Schemes for which urlparse separates path parameters. -/
def usesParams : List (List Char) :=
  ["", "ftp", "hdl", "prospero", "http", "imap", "https", "shttp", "rtsp",
   "rtspu", "sip", "sips", "mms", "sftp", "tel"].map String.data

/-- urllib's _splitparams: parameters after the first `;` of the last path
segment (the caller only invokes this when a `;` is present). -/
def splitParams (url : List Char) : List Char × List Char :=
  if url.contains '/' then
    let r := url.reverse
    let b := (r.takeWhile (· ≠ '/')).reverse
    let a := ((r.dropWhile (· ≠ '/')).drop 1).reverse
    if b.contains ';' then
      (a ++ '/' :: b.takeWhile (· ≠ ';'), (b.dropWhile (· ≠ ';')).drop 1)
    else (url, [])
  else (url.takeWhile (· ≠ ';'), (url.dropWhile (· ≠ ';')).drop 1)

/-- Parsed URL components as urlparse returns them. -/
structure UrlParts where
  scheme : List Char
  netloc : List Char
  path : List Char
  params : List Char
  query : List Char
  fragment : List Char
deriving Repr, DecidableEq

/-- urlparse: urlsplit plus parameter separation for the schemes that use
them; none models the ValueError raised on invalid bracketed netlocs. -/
def pyUrlparse (s : List Char) : Option UrlParts :=
  match pyUrlsplit s with
  | none => none
  | some (scheme, netloc, url, query, frag) =>
    if usesParams.contains scheme && url.contains ';' then
      let pp := splitParams url
      some ⟨scheme, netloc, pp.1, pp.2, query, frag⟩
    else some ⟨scheme, netloc, url, [], query, frag⟩

def commentsD : List Char := "/comments/".data
def reddItSlashD : List Char := "redd.it/".data

/-- Embedding of is_reddit_submission_url (lines 63-70): parse the URL, check
the netloc for reddit.com or redd.it and the path for /comments/ or redd.it/;
a parse failure (the except branch) yields false. -/
def is_reddit_submission_url (u : String) : Bool :=
  match pyUrlparse u.data with
  | none => false
  | some p =>
    (containsSub redditD p.netloc || containsSub reddItD p.netloc) &&
    (containsSub commentsD p.path || containsSub reddItSlashD p.path)

/-- Characters matched by the id class [a-z0-9] under IGNORECASE. -/
def idChar (c : Char) : Bool := c.isDigit || c.isAlpha

/-- Leftmost regex search for `marker` (case-insensitively) followed by five
to eight id characters; returns the greedy id group of the first match. -/
def searchIdAfter (marker : List Char) : List Char → Option (List Char)
  | [] => none
  | c :: cs =>
    if marker.isPrefixOf ((c :: cs).map Char.toLower) then
      let run := ((c :: cs).drop marker.length).takeWhile idChar
      if 5 ≤ run.length then some (run.take 8) else searchIdAfter marker cs
    else searchIdAfter marker cs

/-- Embedding of submission_id_from_url (lines 84-91): the /comments/ id
pattern first, then the redd.it short-link pattern, else none. -/
def submission_id_from_url (u : String) : Option String :=
  match searchIdAfter commentsD u.data with
  | some r => some (String.mk r)
  | none =>
    match searchIdAfter reddItSlashD u.data with
    | some r => some (String.mk r)
    | none => none

/-- Characters admitted into a URL match by URL_RE (anything but whitespace,
closing parenthesis, greater-than and closing bracket). -/
def urlAllowedChar (c : Char) : Bool :=
  !pySpace c && c ≠ ')' && c ≠ '>' && c ≠ ']'

/-- Python rstrip of the trailing punctuation set used by extract_urls. -/
def rstripPunct (s : List Char) : List Char :=
  (s.reverse.dropWhile (fun c => c = '.' || c = ',' || c = ';' || c = '!')).reverse

/-- REPLACE: fuelled scanner for URL_RE.finditer: at each position try the
https then http scheme case-insensitively, require at least one allowed
character, emit the original text of the match and continue after it. -/
def scanUrlsGo : Nat → List Char → List (List Char)
  | _, [] => []
  | 0, _ => []
  | n + 1, c :: cs =>
    if ((c :: cs).take 8).map Char.toLower = httpsD then
      let run := ((c :: cs).drop 8).takeWhile urlAllowedChar
      if run.isEmpty then scanUrlsGo n cs
      else ((c :: cs).take 8 ++ run) :: scanUrlsGo n ((c :: cs).drop (8 + run.length))
    else if ((c :: cs).take 7).map Char.toLower = httpD then
      let run := ((c :: cs).drop 7).takeWhile urlAllowedChar
      if run.isEmpty then scanUrlsGo n cs
      else ((c :: cs).take 7 ++ run) :: scanUrlsGo n ((c :: cs).drop (7 + run.length))
    else scanUrlsGo n cs

/-- Embedding of extract_urls (lines 57-60): scan for URL_RE matches, strip
trailing punctuation, deduplicate (the Python set collapses duplicates; its
iteration order is unspecified and every caller sorts or folds the result
into a set, so scan order is used here). -/
def extract_urls (text : String) : List String :=
  if text = "" then []
  else (((scanUrlsGo text.data.length text.data).map rstripPunct).dedup).map String.mk

/-! The persistent store.  Each SQLite table becomes a list of typed rows in
insertion order; INSERT OR IGNORE keyed on the primary key becomes an
append-if-absent, UPDATE ... WHERE becomes a map over the rows.  Timestamp
strings (now_utc_iso) are supplied by the environment as arguments. -/

/-- ISO-8601 rendering of an epoch timestamp (ts_to_iso, line 53); the
calendar formatting is opaque to every claim, so the embedding renders the
epoch value itself (an injective stand-in for the textual form). -/
def ts_to_iso (ts : Int) : String := toString ts

def MAX_CRAWL_DEPTH : Nat := 3
def MAX_QUEUE_BATCH : Nat := 50
def STOP_DUP_STREAK : Nat := 2500
def HUB_TOP_LEVEL_COMMENTS : Nat := 75
def HUB_REPLY_DEPTH : Nat := 1
def HUB_MAX_REPLIES_PER_TOP : Nat := 20

/-- One row of the posts table (apply_schema, lines 147-161). -/
structure PostRow where
  id : String
  subreddit : String
  created_utc : Int
  created_iso : String
  title : Option String
  selftext : Option String
  score : Int
  num_comments : Int
  permalink : String
  url : Option String
  link_flair_text : Option String
  author : Option String
  retrieved_at_utc : String
deriving Repr, DecidableEq

/-- One row of the links table (lines 166-172). -/
structure LinkRow where
  post_id : String
  url : String
  first_seen_utc : String
deriving Repr, DecidableEq

/-- One row of the crawl_queue table (lines 176-186). -/
structure QueueRow where
  key : String
  url : String
  depth : Nat
  status : String
  last_error : Option String
  is_hub : Nat
  max_comment_depth : Nat
  added_at_utc : String
  updated_at_utc : String
deriving Repr, DecidableEq

/-- One row of the runs table (lines 190-199). -/
structure RunRow where
  run_id : String
  started_at_utc : String
  ended_at_utc : Option String
  notes : String
  posts_inserted : Nat
  hubs_queued : Nat
  queue_done : Nat
  errors : Nat
deriving Repr, DecidableEq

/-- The content-bearing database state (posts, links, crawl_queue). -/
structure DB where
  posts : List PostRow
  links : List LinkRow
  queue : List QueueRow
deriving Repr, DecidableEq

def DB.empty : DB := ⟨[], [], []⟩

/-- insert_post (lines 205-215): INSERT OR IGNORE on the id primary key; the
boolean is the cursor rowcount == 1 test, true exactly when a row was
appended. -/
def insert_post (posts : List PostRow) (row : PostRow) : List PostRow × Bool :=
  if posts.any (fun r => r.id = row.id) then (posts, false)
  else (posts ++ [row], true)

/-- upsert_link (lines 218-219): INSERT OR IGNORE on the (post_id, url)
composite key. -/
def upsert_link (links : List LinkRow) (post_id url now : String) : List LinkRow :=
  if links.any (fun r => r.post_id = post_id && r.url = url) then links
  else links ++ [⟨post_id, url, now⟩]

/-- queue_add (lines 222-230): INSERT OR IGNORE on the key primary key; a new
row starts in status queued with no error. -/
def queue_add (q : List QueueRow) (key url : String) (depth is_hub mcd : Nat)
    (now : String) : List QueueRow :=
  if q.any (fun r => r.key = key) then q
  else q ++ [⟨key, url, depth, "queued", none, is_hub, mcd, now, now⟩]

/-- queue_mark (lines 233-234): UPDATE status, last_error and updated_at for
every row with the given key. -/
def queue_mark (q : List QueueRow) (key status : String) (err : Option String)
    (now : String) : List QueueRow :=
  q.map (fun r =>
    if r.key = key then
      { r with status := status, last_error := err, updated_at_utc := now }
    else r)

/-- queue_reset_hubs (lines 251-254): every is_hub row goes back to queued. -/
def queue_reset_hubs (q : List QueueRow) (now : String) : List QueueRow :=
  q.map (fun r =>
    if r.is_hub = 1 then { r with status := "queued", updated_at_utc := now }
    else r)

/-- queue_pop_batch (lines 237-248): the queued rows, oldest added first,
capped at the batch size. -/
def queue_pop_batch (q : List QueueRow) (n : Nat) : List QueueRow :=
  (((q.filter (fun r => r.status = "queued")).insertionSort
    (fun a b => a.added_at_utc ≤ b.added_at_utc)).take n)

/-- begin_run (lines 257-261): insert a fresh run row with zero counters. -/
def begin_run (runs : List RunRow) (run_id now notes : String) : List RunRow :=
  runs ++ [⟨run_id, now, none, notes, 0, 0, 0, 0⟩]

/-- update_run_stats (lines 264-273): overwrite the four counters of the run
row. -/
def update_run_stats (runs : List RunRow) (run_id : String)
    (pi hq qd er : Nat) : List RunRow :=
  runs.map (fun r =>
    if r.run_id = run_id then
      { r with posts_inserted := pi, hubs_queued := hq, queue_done := qd, errors := er }
    else r)

/-- end_run (lines 276-278): set the end instant of the run row. -/
def end_run (runs : List RunRow) (run_id now : String) : List RunRow :=
  runs.map (fun r =>
    if r.run_id = run_id then { r with ended_at_utc := some now } else r)

/-- Python sorted(set(l)) on strings: the distinct elements in lexicographic
code-point order. -/
def sortedDedupStr (l : List String) : List String :=
  l.dedup.insertionSort (fun a b => a ≤ b)

/-- A top-level comment as delivered by the content source: a possibly
missing body and the bodies of its direct replies. -/
structure TopComment where
  body : Option String
  replies : List (Option String)
deriving Repr, DecidableEq

/-- A submission as delivered by the content source (the praw fields the
pipeline reads; author is already rendered to text when present, matching
str(submission.author) if submission.author else None). -/
structure Submission where
  id : String
  subreddit : String
  created_utc : Int
  title : Option String
  selftext : Option String
  score : Int
  num_comments : Int
  permalink : String
  url : Option String
  link_flair_text : Option String
  author : Option String
  comments : List TopComment
deriving Repr, DecidableEq

/-- One iteration of the link-discovery loop inside
store_submission_and_discover (lines 338-344): record the link, and when the
depth guard depth < MAX_CRAWL_DEPTH holds and the URL classifies as a reddit
submission, enqueue it at depth+1 under its resolved key. -/
def discoverStep (post_id : String) (depth : Nat) (now : String) (d : DB)
    (u : String) : DB :=
  let d1 : DB := { d with links := upsert_link d.links post_id u now }
  if depth < MAX_CRAWL_DEPTH && is_reddit_submission_url u then
    let nu := normalize_reddit_url u
    let key := (submission_id_from_url nu).getD nu
    { d1 with queue := queue_add d1.queue key nu (depth + 1) 0 0 now }
  else d1

/-- store_submission_and_discover (lines 306-346): insert the post row,
record every extracted URL as a link, and enqueue reddit-submission links at
depth+1 while the depth guard depth < MAX_CRAWL_DEPTH holds. -/
def store_submission_and_discover (db : DB) (s : Submission) (depth : Nat)
    (now : String) : DB × Bool :=
  let post_id := s.id
  let permalink := "https://www.reddit.com" ++ s.permalink
  let row : PostRow :=
    ⟨post_id, s.subreddit, s.created_utc, ts_to_iso s.created_utc, s.title,
     s.selftext, s.score, s.num_comments, permalink, s.url,
     s.link_flair_text, s.author, now⟩
  let ins := insert_post db.posts row
  let urls := sortedDedupStr
    (extract_urls (s.title.getD "") ++ extract_urls (s.selftext.getD "") ++
     extract_urls (s.url.getD ""))
  let db1 : DB := { db with posts := ins.1 }
  (urls.foldl (discoverStep post_id depth now) db1, ins.2)

/-- Links harvested from one comment body: extracted URLs that classify as
reddit submissions, normalized (lines 288-290 and 297-299). -/
def commentLinks (body : String) : List String :=
  ((extract_urls body).filter (fun u => is_reddit_submission_url u)).map
    normalize_reddit_url

/-- extract_reddit_links_from_best_comments (lines 281-303): the sorted set
of normalized reddit links found in the first top_n top-level comment bodies
and, when reply_depth is at least one, in the first max_replies replies of
each (the network failures its reply step swallows are external and carry no
state effect, so the embedding reads the reply data directly). -/
def extract_reddit_links_from_best_comments (s : Submission)
    (top_n reply_depth max_replies : Nat) : List String :=
  let top := s.comments.take top_n
  let fromTops := top.flatMap (fun t => commentLinks (t.body.getD ""))
  let fromReplies :=
    if 1 ≤ reply_depth then
      top.flatMap (fun t =>
        (t.replies.take max_replies).flatMap (fun r => commentLinks (r.getD "")))
    else []
  sortedDedupStr (fromTops ++ fromReplies)

/-- The hub expansion branch of crawl_queue (lines 445-450): when the item is
flagged as a hub and its depth is within the (non-strict) guard, enqueue each
best-comment link at depth+1. -/
def hubStep (depth : Nat) (now : String) (d : DB) (nu : String) : DB :=
  { d with queue := (queue_add d.queue ((submission_id_from_url nu).getD nu) nu
      (depth + 1) 0 0 now) }

def hubExpand (db : DB) (r : QueueRow) (s : Submission) (now : String) : DB :=
  if r.is_hub = 1 && r.depth ≤ MAX_CRAWL_DEPTH then
    (extract_reddit_links_from_best_comments s HUB_TOP_LEVEL_COMMENTS
      r.max_comment_depth HUB_MAX_REPLIES_PER_TOP).foldl (hubStep r.depth now) db
  else db

/-- Successful processing of one popped item in crawl_queue (lines 439-454):
store and discover at the item's recorded depth, expand hub comments, mark
done. -/
def crawlProcessOk (db : DB) (r : QueueRow) (s : Submission) (now : String) : DB :=
  let db1 := (store_submission_and_discover db s r.depth now).1
  let db2 := hubExpand db1 r s now
  { db2 with queue := queue_mark db2.queue r.key "done" none now }

/-- Failed processing of one popped item where the exception surfaced at the
fetch, before any state effect (lines 456-460): mark error with the message
truncated to 500 characters. -/
def crawlProcessErrFetch (db : DB) (r : QueueRow) (e : String) (now : String) : DB :=
  { db with queue := queue_mark db.queue r.key "error" (some (e.take 500)) now }

/-- Failed processing where the exception surfaced during hub comment
expansion, after the store effects. -/
def crawlProcessErrExpand (db : DB) (r : QueueRow) (s : Submission) (e : String)
    (now : String) : DB :=
  let db1 := (store_submission_and_discover db s r.depth now).1
  { db1 with queue := queue_mark db1.queue r.key "error" (some (e.take 500)) now }

/-- Reachable database states of the pipeline from the empty store: flair
ingestion stores a submission at depth 0, hub discovery enqueues a hub item
at depth 0 with the configured reply depth (lines 403-413), queue crawl
processes a queued row (successfully or not), and --recrawl-hubs resets hub
rows. -/
inductive Reach : DB → Prop
  | init : Reach DB.empty
  | flair (db : DB) (s : Submission) (now : String) :
      Reach db → Reach (store_submission_and_discover db s 0 now).1
  | hubSeed (db : DB) (s : Submission) (now : String) :
      Reach db →
      Reach { db with queue := (queue_add db.queue s.id
        ("https://www.reddit.com" ++ s.permalink) 0 1 HUB_REPLY_DEPTH now) }
  | crawlOk (db : DB) (r : QueueRow) (s : Submission) (now : String) :
      Reach db → r ∈ db.queue → r.status = "queued" →
      Reach (crawlProcessOk db r s now)
  | crawlErrFetch (db : DB) (r : QueueRow) (e : String) (now : String) :
      Reach db → r ∈ db.queue → r.status = "queued" →
      Reach (crawlProcessErrFetch db r e now)
  | crawlErrExpand (db : DB) (r : QueueRow) (s : Submission) (e : String)
      (now : String) :
      Reach db → r ∈ db.queue → r.status = "queued" →
      Reach (crawlProcessErrExpand db r s e now)
  | resetHubs (db : DB) (now : String) :
      Reach db → Reach { db with queue := queue_reset_hubs db.queue now }

/-- deadline_reached (lines 98-99). -/
def deadline_reached (deadline_ts : Option Int) (now : Int) : Bool :=
  match deadline_ts with
  | none => false
  | some d => d ≤ now

/-- The per-flair inner loop of ingest_dd_flair_posts (lines 364-387):
deadline check, store at depth 0, duplicate-streak update (reset on insert,
incremented on duplicate), early break once the streak reaches
STOP_DUP_STREAK.  The wall clock and timestamp strings are environment
streams indexed by a tick; the returned numbers are the count of results
examined and the inserted count. -/
def flairLoop (deadline : Option Int) (clock : Nat → Int) (nowf : Nat → String) :
    List Submission → DB → Nat → Nat → Nat → Nat → DB × Nat × Nat
  | [], db, _, seen, ic, _ => (db, seen, ic)
  | s :: rest, db, streak, seen, ic, tick =>
    if deadline_reached deadline (clock tick) then (db, seen, ic)
    else
      let res := store_submission_and_discover db s 0 (nowf tick)
      let ic' := if res.2 then ic + 1 else ic
      let streak' := if res.2 then 0 else streak + 1
      if STOP_DUP_STREAK ≤ streak' then (res.1, seen + 1, ic')
      else flairLoop deadline clock nowf rest res.1 streak' (seen + 1) ic' (tick + 1)

/-- The per-batch item loop of crawl_queue (lines 434-467): each popped item
carries the outcome of its remote fetch (the submission, or the exception
message raised); success runs store, hub expansion and a done mark, failure
runs an error mark, and the loop always continues to the next item.  Returns
the database and the done and error counters. -/
def processBatch (deadline : Option Int) (clock : Nat → Int) (nowf : Nat → String) :
    List (QueueRow × Except String Submission) → DB → Nat → Nat → Nat →
    DB × Nat × Nat
  | [], db, _, done, errs => (db, done, errs)
  | (r, f) :: rest, db, tick, done, errs =>
    if deadline_reached deadline (clock tick) then (db, done, errs)
    else
      match f with
      | .ok s =>
        processBatch deadline clock nowf rest (crawlProcessOk db r s (nowf tick))
          (tick + 1) (done + 1) errs
      | .error e =>
        processBatch deadline clock nowf rest
          (crawlProcessErrFetch db r e (nowf tick)) (tick + 1) done (errs + 1)

/-- Inputs of one main execution: the recrawl flag, each pipeline phase
abstracted to its outcome (value returned or exception raised), and the two
deadline_reached test results guarding phases B and C.  The recrawl flag's
queue_reset_hubs effect touches only the crawl_queue table, modelled by
`Reach.resetHubs`. -/
structure MainInput where
  recrawl_hubs : Bool
  ingestR : Except String Nat
  d1 : Bool
  discoverR : Except String Nat
  d2 : Bool
  crawlR : Except String (Nat × Nat)
deriving Repr

/-- The guaranteed-finalization tail of main's except branch (lines 521-526):
flush the accumulated counters with the fatal error counted, set the end
instant, exit 1. -/
def finishFatal (runs : List RunRow) (run_id nowE : String)
    (c : Nat × Nat × Nat × Nat) : List RunRow × Nat × (Nat × Nat × Nat × Nat) × Bool :=
  (end_run (update_run_stats runs run_id c.1 c.2.1 c.2.2.1 (c.2.2.2 + 1)) run_id nowE,
   1, c, true)

/-- The success tail of main (lines 515-519): set the end instant, exit 0. -/
def finishOk (runs : List RunRow) (run_id nowE : String)
    (c : Nat × Nat × Nat × Nat) : List RunRow × Nat × (Nat × Nat × Nat × Nat) × Bool :=
  (end_run runs run_id nowE, 0, c, false)

/-- The run bookkeeping of main (lines 493-526): begin the run, execute the
three phases with counter flushes at each boundary, finalize on the success
path or in the except branch.  Returns the runs table, the exit code, the
final local counters and whether the fatal branch was taken. -/
def mainModel (runs0 : List RunRow) (run_id nowB nowE : String) (inp : MainInput) :
    List RunRow × Nat × (Nat × Nat × Nat × Nat) × Bool :=
  let runs := begin_run runs0 run_id nowB
    "DD Library Autopilot (BEST hub comments, time budget)"
  match inp.ingestR with
  | .error _ => finishFatal runs run_id nowE (0, 0, 0, 0)
  | .ok pi =>
    let runsA := update_run_stats runs run_id pi 0 0 0
    if inp.d1 then
      if inp.d2 then finishOk runsA run_id nowE (pi, 0, 0, 0)
      else
        match inp.crawlR with
        | .error _ => finishFatal runsA run_id nowE (pi, 0, 0, 0)
        | .ok qc =>
          finishOk (update_run_stats runsA run_id pi 0 qc.1 qc.2) run_id nowE
            (pi, 0, qc.1, qc.2)
    else
      match inp.discoverR with
      | .error _ => finishFatal runsA run_id nowE (pi, 0, 0, 0)
      | .ok hq =>
        let runsB := update_run_stats runsA run_id pi hq 0 0
        if inp.d2 then finishOk runsB run_id nowE (pi, hq, 0, 0)
        else
          match inp.crawlR with
          | .error _ => finishFatal runsB run_id nowE (pi, hq, 0, 0)
          | .ok qc =>
            finishOk (update_run_stats runsB run_id pi hq qc.1 qc.2) run_id nowE
              (pi, hq, qc.1, qc.2)

/-- Whether some phase that actually executed raised (the condition under
which main takes its except branch). -/
def phaseRaised (inp : MainInput) : Bool :=
  match inp.ingestR with
  | .error _ => true
  | .ok _ =>
    (!inp.d1 && (match inp.discoverR with | .error _ => true | .ok _ => false)) ||
    ((inp.d1 || (match inp.discoverR with | .error _ => false | .ok _ => true)) &&
      !inp.d2 && (match inp.crawlR with | .error _ => true | .ok _ => false))

/-! Claims C4 and C5: idempotence of the keyed inserts. -/

theorem queue_add_of_key_present (q : List QueueRow) (k url : String)
    (depth is_hub mcd : Nat) (now : String)
    (h : ∃ x ∈ q, x.key = k) :
    queue_add q k url depth is_hub mcd now = q := by
  have : q.any (fun r => r.key = k) = true := by
    rcases h with ⟨x, hx, hk⟩
    exact List.any_eq_true.mpr ⟨x, hx, by simp [hk]⟩
  simp [queue_add, this]

/-- Claim C4: enqueuing a key already present in crawl_queue, with any url,
depth, hub flag or reply-depth arguments, leaves the table unchanged (the
original row, with its depth and flags, is retained) and exactly one row for
that key remains. -/
theorem queue_add_duplicate_key_noop (q : List QueueRow) (k url : String)
    (depth is_hub mcd : Nat) (now : String)
    (h1 : (q.filter (fun x => x.key = k)).length = 1) :
    queue_add q k url depth is_hub mcd now = q ∧
    ((queue_add q k url depth is_hub mcd now).filter (fun x => x.key = k)).length = 1 := by
  have hex : ∃ x ∈ q, x.key = k := by
    have hne : q.filter (fun x => x.key = k) ≠ [] := by
      intro hnil; rw [hnil] at h1; simp at h1
    rcases List.exists_mem_of_ne_nil _ hne with ⟨x, hx⟩
    have hxq := List.mem_of_mem_filter hx
    have hxk := List.of_mem_filter hx
    exact ⟨x, hxq, by simpa using hxk⟩
  have heq := queue_add_of_key_present q k url depth is_hub mcd now hex
  exact ⟨heq, by rw [heq]; exact h1⟩

def sampleQueueRow : QueueRow :=
  ⟨"abc12", "https://www.reddit.com/comments/abc12", 2, "queued", none, 0, 0, "t0", "t0"⟩

theorem queue_add_duplicate_key_noop_witness :
    (([sampleQueueRow].filter (fun x => x.key = "abc12")).length = 1) ∧
    (queue_add [sampleQueueRow] "abc12" "u2" 9 1 5 "t1" = [sampleQueueRow] ∧
     ((queue_add [sampleQueueRow] "abc12" "u2" 9 1 5 "t1").filter
       (fun x => x.key = "abc12")).length = 1) :=
  ⟨by decide, queue_add_duplicate_key_noop [sampleQueueRow] "abc12" "u2" 9 1 5 "t1" (by decide)⟩

/-- Claim C5: insert_post returns true exactly when no row with the same id
exists; on success the new row is appended, on duplicate the table is left
unchanged (never overwritten) and exactly one row for that id remains. -/
theorem insert_post_spec (posts : List PostRow) (row : PostRow) :
    ((insert_post posts row).2 = true ↔ ∀ x ∈ posts, x.id ≠ row.id) ∧
    ((insert_post posts row).2 = true → (insert_post posts row).1 = posts ++ [row]) ∧
    ((insert_post posts row).2 = false → (insert_post posts row).1 = posts) ∧
    ((posts.filter (fun x => x.id = row.id)).length = 1 →
      (insert_post posts row).2 = false ∧
      ((insert_post posts row).1.filter (fun x => x.id = row.id)).length = 1) := by
  by_cases h : posts.any (fun r => r.id = row.id) = true
  · rcases List.any_eq_true.mp h with ⟨x, hx, hxk⟩
    have hres : insert_post posts row = (posts, false) := by
      simp [insert_post, h]
    rw [hres]
    refine ⟨?_, ?_, ?_, ?_⟩
    · constructor
      · intro hfalse; cases hfalse
      · intro hall; exact absurd (by simpa using hxk) (hall x hx)
    · intro hfalse; cases hfalse
    · intro _; rfl
    · intro h1; exact ⟨rfl, h1⟩
  · have h' : ∀ x ∈ posts, x.id ≠ row.id := by
      intro x hx
      have hfa : posts.any (fun r => r.id = row.id) = false := Bool.eq_false_iff.mpr h
      have := List.any_eq_false.mp hfa x hx
      simpa using this
    have hres : insert_post posts row = (posts ++ [row], true) := by
      simp only [insert_post, if_neg h]
    rw [hres]
    refine ⟨?_, ?_, ?_, ?_⟩
    · exact ⟨fun _ => h', fun _ => rfl⟩
    · intro _; rfl
    · intro hfalse; cases hfalse
    · intro h1
      exfalso
      have hnil : posts.filter (fun x => x.id = row.id) = [] := by
        apply List.filter_eq_nil_iff.mpr
        intro x hx
        simpa using h' x hx
      rw [hnil] at h1; simp at h1

def samplePostRow : PostRow :=
  ⟨"p1", "Superstonk", 0, "0", some "t", some "", 1, 2,
   "https://www.reddit.com/x", some "u", none, none, "t0"⟩

theorem insert_post_spec_witness :
    (([samplePostRow].filter (fun x => x.id = samplePostRow.id)).length = 1) ∧
    ((insert_post [samplePostRow] samplePostRow).2 = false ∧
     ((insert_post [samplePostRow] samplePostRow).1.filter
       (fun x => x.id = samplePostRow.id)).length = 1) :=
  ⟨by decide, (insert_post_spec [samplePostRow] samplePostRow).2.2.2 (by decide)⟩

/-! Claim C2: run finalization in main. -/

theorem runs_map_fresh_noop (runs0 : List RunRow) (run_id : String)
    (f : RunRow → RunRow)
    (hfresh : ∀ r ∈ runs0, r.run_id ≠ run_id)
    (hf : ∀ r, r.run_id ≠ run_id → f r = r) :
    runs0.map f = runs0 := by
  calc runs0.map f = runs0.map id :=
        List.map_congr_left (fun r hr => hf r (hfresh r hr))
    _ = runs0 := List.map_id runs0

theorem update_run_stats_append (runs0 : List RunRow) (b : RunRow)
    (run_id : String) (pi hq qd er : Nat)
    (hfresh : ∀ r ∈ runs0, r.run_id ≠ run_id) (hb : b.run_id = run_id) :
    update_run_stats (runs0 ++ [b]) run_id pi hq qd er =
      runs0 ++ [{ b with posts_inserted := pi, hubs_queued := hq, queue_done := qd, errors := er }] := by
  unfold update_run_stats
  rw [List.map_append]
  congr 1
  · exact runs_map_fresh_noop runs0 run_id _ hfresh (fun r hr => by simp [hr])
  · simp [hb]

theorem end_run_append (runs0 : List RunRow) (b : RunRow)
    (run_id nowE : String)
    (hfresh : ∀ r ∈ runs0, r.run_id ≠ run_id) (hb : b.run_id = run_id) :
    end_run (runs0 ++ [b]) run_id nowE =
      runs0 ++ [{ b with ended_at_utc := some nowE }] := by
  unfold end_run
  rw [List.map_append]
  congr 1
  · exact runs_map_fresh_noop runs0 run_id _ hfresh (fun r hr => by simp [hr])
  · simp [hb]

theorem find_fresh_append (runs0 : List RunRow) (b : RunRow) (run_id : String)
    (hfresh : ∀ r ∈ runs0, r.run_id ≠ run_id) (hb : b.run_id = run_id) :
    (runs0 ++ [b]).find? (fun r => r.run_id = run_id) = some b := by
  rw [List.find?_append]
  have h0 : runs0.find? (fun r => r.run_id = run_id) = none :=
    List.find?_eq_none.mpr (fun x hx => by simp [hfresh x hx])
  simp [h0, hb]

theorem finishFatal_find (runs0 : List RunRow) (b : RunRow)
    (run_id nowE : String) (c : Nat × Nat × Nat × Nat)
    (hfresh : ∀ r ∈ runs0, r.run_id ≠ run_id) (hb : b.run_id = run_id) :
    (finishFatal (runs0 ++ [b]) run_id nowE c).1.find? (fun r => r.run_id = run_id) =
      some { b with posts_inserted := c.1, hubs_queued := c.2.1, queue_done := c.2.2.1, errors := c.2.2.2 + 1, ended_at_utc := some nowE } := by
  unfold finishFatal
  rw [update_run_stats_append runs0 b run_id _ _ _ _ hfresh hb,
      end_run_append runs0 _ run_id nowE hfresh (by simp [hb])]
  exact find_fresh_append runs0 _ run_id hfresh (by simp [hb])

theorem finishOk_find (runs0 : List RunRow) (b : RunRow)
    (run_id nowE : String) (c : Nat × Nat × Nat × Nat)
    (hfresh : ∀ r ∈ runs0, r.run_id ≠ run_id) (hb : b.run_id = run_id) :
    (finishOk (runs0 ++ [b]) run_id nowE c).1.find? (fun r => r.run_id = run_id) =
      some { b with ended_at_utc := some nowE } := by
  unfold finishOk
  rw [end_run_append runs0 b run_id nowE hfresh hb]
  exact find_fresh_append runs0 _ run_id hfresh (by simp [hb])

/-- Claim C2: whatever the phase outcomes and deadline tests, main finalizes
the run row (end instant set, accumulated counters flushed, with the fatal
error counted on the except branch) and exits 0 on success, 1 on fatal
failure. -/
theorem main_always_finalizes (runs0 : List RunRow) (run_id nowB nowE : String)
    (inp : MainInput) (hfresh : ∀ r ∈ runs0, r.run_id ≠ run_id) :
    ∃ row : RunRow,
      (mainModel runs0 run_id nowB nowE inp).1.find? (fun r => r.run_id = run_id) = some row ∧
      row.ended_at_utc = some nowE ∧
      row.posts_inserted = (mainModel runs0 run_id nowB nowE inp).2.2.1.1 ∧
      row.hubs_queued = (mainModel runs0 run_id nowB nowE inp).2.2.1.2.1 ∧
      row.queue_done = (mainModel runs0 run_id nowB nowE inp).2.2.1.2.2.1 ∧
      row.errors = (mainModel runs0 run_id nowB nowE inp).2.2.1.2.2.2 +
        (if (mainModel runs0 run_id nowB nowE inp).2.2.2 = true then 1 else 0) ∧
      (mainModel runs0 run_id nowB nowE inp).2.1 = (if phaseRaised inp = true then 1 else 0) ∧
      (mainModel runs0 run_id nowB nowE inp).2.2.2 = phaseRaised inp := by
  rcases inp with ⟨rc, iR, d1, dR, d2, cR⟩
  cases iR with
  | error e =>
    simp only [mainModel, begin_run, Bool.false_eq_true, Bool.true_eq_false, if_true, if_false, eq_self_iff_true, ite_true, ite_false]
    exact ⟨_, finishFatal_find runs0 _ run_id nowE _ hfresh (by rfl), rfl, rfl, rfl, rfl, rfl,
      by simp [finishFatal, phaseRaised], by simp [finishFatal, phaseRaised]⟩
  | ok pi =>
    cases d1 with
    | true =>
      cases d2 with
      | true =>
        simp only [mainModel, begin_run, Bool.false_eq_true, Bool.true_eq_false, if_true, if_false, eq_self_iff_true, ite_true, ite_false]
        rw [update_run_stats_append runs0 _ run_id _ _ _ _ hfresh (by rfl)]
        exact ⟨_, finishOk_find runs0 _ run_id nowE _ hfresh (by rfl), rfl, rfl, rfl, rfl, rfl,
          by simp [finishOk, phaseRaised], by simp [finishOk, phaseRaised]⟩
      | false =>
        cases cR with
        | error e =>
          simp only [mainModel, begin_run, Bool.false_eq_true, Bool.true_eq_false, if_true, if_false, eq_self_iff_true, ite_true, ite_false]
          rw [update_run_stats_append runs0 _ run_id _ _ _ _ hfresh (by rfl)]
          exact ⟨_, finishFatal_find runs0 _ run_id nowE _ hfresh (by rfl), rfl, rfl, rfl, rfl, rfl,
            by simp [finishFatal, phaseRaised], by simp [finishFatal, phaseRaised]⟩
        | ok qc =>
          simp only [mainModel, begin_run, Bool.false_eq_true, Bool.true_eq_false, if_true, if_false, eq_self_iff_true, ite_true, ite_false]
          rw [update_run_stats_append runs0 _ run_id _ _ _ _ hfresh (by rfl),
              update_run_stats_append runs0 _ run_id _ _ _ _ hfresh (by rfl)]
          exact ⟨_, finishOk_find runs0 _ run_id nowE _ hfresh (by rfl), rfl, rfl, rfl, rfl, rfl,
            by simp [finishOk, phaseRaised], by simp [finishOk, phaseRaised]⟩
    | false =>
      cases dR with
      | error e =>
        simp only [mainModel, begin_run, Bool.false_eq_true, Bool.true_eq_false, if_true, if_false, eq_self_iff_true, ite_true, ite_false]
        rw [update_run_stats_append runs0 _ run_id _ _ _ _ hfresh (by rfl)]
        exact ⟨_, finishFatal_find runs0 _ run_id nowE _ hfresh (by rfl), rfl, rfl, rfl, rfl, rfl,
          by simp [finishFatal, phaseRaised], by simp [finishFatal, phaseRaised]⟩
      | ok hq =>
        cases d2 with
        | true =>
          simp only [mainModel, begin_run, Bool.false_eq_true, Bool.true_eq_false, if_true, if_false, eq_self_iff_true, ite_true, ite_false]
          rw [update_run_stats_append runs0 _ run_id _ _ _ _ hfresh (by rfl),
              update_run_stats_append runs0 _ run_id _ _ _ _ hfresh (by rfl)]
          exact ⟨_, finishOk_find runs0 _ run_id nowE _ hfresh (by rfl), rfl, rfl, rfl, rfl, rfl,
            by simp [finishOk, phaseRaised], by simp [finishOk, phaseRaised]⟩
        | false =>
          cases cR with
          | error e =>
            simp only [mainModel, begin_run, Bool.false_eq_true, Bool.true_eq_false, if_true, if_false, eq_self_iff_true, ite_true, ite_false]
            rw [update_run_stats_append runs0 _ run_id _ _ _ _ hfresh (by rfl),
                update_run_stats_append runs0 _ run_id _ _ _ _ hfresh (by rfl)]
            exact ⟨_, finishFatal_find runs0 _ run_id nowE _ hfresh (by rfl), rfl, rfl, rfl, rfl, rfl,
              by simp [finishFatal, phaseRaised], by simp [finishFatal, phaseRaised]⟩
          | ok qc =>
            simp only [mainModel, begin_run, Bool.false_eq_true, Bool.true_eq_false, if_true, if_false, eq_self_iff_true, ite_true, ite_false]
            rw [update_run_stats_append runs0 _ run_id _ _ _ _ hfresh (by rfl),
                update_run_stats_append runs0 _ run_id _ _ _ _ hfresh (by rfl),
                update_run_stats_append runs0 _ run_id _ _ _ _ hfresh (by rfl)]
            exact ⟨_, finishOk_find runs0 _ run_id nowE _ hfresh (by rfl), rfl, rfl, rfl, rfl, rfl,
              by simp [finishOk, phaseRaised], by simp [finishOk, phaseRaised]⟩

def mainInputSample : MainInput := ⟨false, .ok 2, false, .ok 1, false, .error "boom"⟩

theorem main_always_finalizes_witness :
    (∀ r ∈ ([] : List RunRow), r.run_id ≠ "r1") ∧
    (∃ row : RunRow,
      (mainModel [] "r1" "t0" "t1" mainInputSample).1.find? (fun r => r.run_id = "r1") = some row ∧
      row.ended_at_utc = some "t1" ∧
      row.posts_inserted = (mainModel [] "r1" "t0" "t1" mainInputSample).2.2.1.1 ∧
      row.hubs_queued = (mainModel [] "r1" "t0" "t1" mainInputSample).2.2.1.2.1 ∧
      row.queue_done = (mainModel [] "r1" "t0" "t1" mainInputSample).2.2.1.2.2.1 ∧
      row.errors = (mainModel [] "r1" "t0" "t1" mainInputSample).2.2.1.2.2.2 +
        (if (mainModel [] "r1" "t0" "t1" mainInputSample).2.2.2 = true then 1 else 0) ∧
      (mainModel [] "r1" "t0" "t1" mainInputSample).2.1 =
        (if phaseRaised mainInputSample = true then 1 else 0) ∧
      (mainModel [] "r1" "t0" "t1" mainInputSample).2.2.2 = phaseRaised mainInputSample) :=
  ⟨by simp, main_always_finalizes [] "r1" "t0" "t1" mainInputSample (by simp)⟩

/-! Claim C9: duplicate-streak early termination of the flair scan. -/

theorem foldl_discoverStep_posts (pid : String) (depth : Nat) (now : String) :
    ∀ (urls : List String) (d : DB),
      (urls.foldl (discoverStep pid depth now) d).posts = d.posts := by
  intro urls
  induction urls with
  | nil => intro d; rfl
  | cons u rest ih =>
    intro d
    rw [List.foldl_cons, ih]
    simp only [discoverStep]
    split <;> rfl

theorem store_dup (db : DB) (s : Submission) (depth : Nat) (now : String)
    (h : db.posts.any (fun r => r.id = s.id) = true) :
    (store_submission_and_discover db s depth now).2 = false ∧
    (store_submission_and_discover db s depth now).1.posts = db.posts := by
  have h2 : insert_post db.posts ⟨s.id, s.subreddit, s.created_utc,
      ts_to_iso s.created_utc, s.title, s.selftext, s.score, s.num_comments,
      "https://www.reddit.com" ++ s.permalink, s.url, s.link_flair_text,
      s.author, now⟩ = (db.posts, false) := by
    simp [insert_post, h]
  simp only [store_submission_and_discover, h2]
  refine ⟨by simp, ?_⟩
  rw [foldl_discoverStep_posts]

theorem flairLoop_cons (clock : Nat → Int) (nowf : Nat → String)
    (sub : Submission) (rest : List Submission) (db : DB)
    (streak seen ic tick : Nat) :
    flairLoop none clock nowf (sub :: rest) db streak seen ic tick =
      (let res := store_submission_and_discover db sub 0 (nowf tick)
       let ic' := if res.2 then ic + 1 else ic
       let streak' := if res.2 then 0 else streak + 1
       if STOP_DUP_STREAK ≤ streak' then (res.1, seen + 1, ic')
       else flairLoop none clock nowf rest res.1 streak' (seen + 1) ic' (tick + 1)) := rfl

theorem flairLoop_dup_stream (clock : Nat → Int) (nowf : Nat → String) :
    ∀ (stream : List Submission) (db : DB) (streak seen ic tick : Nat),
      (∀ sub ∈ stream, db.posts.any (fun r => r.id = sub.id) = true) →
      streak < STOP_DUP_STREAK →
      STOP_DUP_STREAK - streak ≤ stream.length →
      (flairLoop none clock nowf stream db streak seen ic tick).2.1 =
        seen + (STOP_DUP_STREAK - streak) ∧
      flairLoop none clock nowf stream db streak seen ic tick =
        flairLoop none clock nowf (stream.take (STOP_DUP_STREAK - streak)) db streak seen ic tick := by
  intro stream
  induction stream with
  | nil =>
    intro db streak seen ic tick hdup hlt hlen
    simp only [STOP_DUP_STREAK] at hlt hlen
    simp at hlen
    omega
  | cons sub rest ih =>
    intro db streak seen ic tick hdup hlt hlen
    have hstore := store_dup db sub 0 (nowf tick) (hdup sub (by simp))
    simp only [STOP_DUP_STREAK] at hlt hlen ⊢
    have htake : (sub :: rest).take (2500 - streak) =
        sub :: rest.take (2500 - streak - 1) := by
      have h2 : 2500 - streak = (2500 - streak - 1) + 1 := by omega
      conv_lhs => rw [h2]
      rw [List.take_succ_cons]
    by_cases hstop : STOP_DUP_STREAK ≤ streak + 1
    · have hs : streak + 1 = 2500 := by
        simp only [STOP_DUP_STREAK] at hstop; omega
      constructor
      · rw [flairLoop_cons]
        simp only [hstore.1, Bool.false_eq_true, ite_false, if_false]
        rw [if_pos hstop]
        simp
        omega
      · rw [htake, flairLoop_cons]
        conv_rhs => rw [flairLoop_cons]
        simp only [hstore.1, Bool.false_eq_true, ite_false, if_false]
        rw [if_pos hstop, if_pos hstop]
    · have h1 : streak + 1 < STOP_DUP_STREAK := by
        simp only [STOP_DUP_STREAK]
        simp only [STOP_DUP_STREAK] at hstop
        omega
      have hdup' : ∀ s2 ∈ rest, (store_submission_and_discover db sub 0 (nowf tick)).1.posts.any
          (fun r => r.id = s2.id) = true := by
        intro s2 hs2
        rw [hstore.2]
        exact hdup s2 (by simp [hs2])
      have hlen' : STOP_DUP_STREAK - (streak + 1) ≤ rest.length := by
        simp only [STOP_DUP_STREAK]
        simp at hlen
        omega
      have ihr := ih (store_submission_and_discover db sub 0 (nowf tick)).1 (streak + 1)
        (seen + 1) ic (tick + 1) hdup' h1 hlen'
      simp only [STOP_DUP_STREAK] at ihr
      constructor
      · rw [flairLoop_cons]
        simp only [hstore.1, Bool.false_eq_true, ite_false, if_false]
        rw [if_neg hstop]
        rw [ihr.1]
        omega
      · rw [htake, flairLoop_cons]
        conv_rhs => rw [flairLoop_cons]
        simp only [hstore.1, Bool.false_eq_true, ite_false, if_false]
        rw [if_neg hstop, if_neg hstop]
        rw [ihr.2]
        have h3 : 2500 - streak - 1 = 2500 - (streak + 1) := by omega
        rw [h3]

/-- Claim C9: with no deadline set and a duplicate-only result stream (every
id already stored) of length at least STOP_DUP_STREAK, the per-label flair
scan examines exactly STOP_DUP_STREAK results, and runs identically on the
stream truncated at the threshold — it never scans further. -/
theorem flair_scan_dup_streak_stop (db : DB) (stream : List Submission)
    (clock : Nat → Int) (nowf : Nat → String)
    (hdup : ∀ sub ∈ stream, db.posts.any (fun r => r.id = sub.id) = true)
    (hlen : STOP_DUP_STREAK ≤ stream.length) :
    (flairLoop none clock nowf stream db 0 0 0 0).2.1 = STOP_DUP_STREAK ∧
    flairLoop none clock nowf stream db 0 0 0 0 =
      flairLoop none clock nowf (stream.take STOP_DUP_STREAK) db 0 0 0 0 := by
  have h := flairLoop_dup_stream clock nowf stream db 0 0 0 0 hdup
    (by simp [STOP_DUP_STREAK]) (by simpa using hlen)
  simpa using h

def dupPost : PostRow :=
  ⟨"dup01", "Superstonk", 0, "0", some "", some "", 0, 0,
   "https://www.reddit.com/r/x", some "", none, none, "t0"⟩

def dupSub : Submission :=
  ⟨"dup01", "Superstonk", 0, some "", some "", 0, 0, "/r/x", some "", none, none, []⟩

theorem flair_scan_dup_streak_stop_witness :
    (∀ sub ∈ List.replicate 2500 dupSub,
      ((DB.mk [dupPost] [] []).posts.any (fun r => r.id = sub.id)) = true) ∧
    STOP_DUP_STREAK ≤ (List.replicate 2500 dupSub).length ∧
    ((flairLoop none (fun _ => 0) (fun _ => "t") (List.replicate 2500 dupSub)
        (DB.mk [dupPost] [] []) 0 0 0 0).2.1 = STOP_DUP_STREAK ∧
     flairLoop none (fun _ => 0) (fun _ => "t") (List.replicate 2500 dupSub)
        (DB.mk [dupPost] [] []) 0 0 0 0 =
       flairLoop none (fun _ => 0) (fun _ => "t")
        ((List.replicate 2500 dupSub).take STOP_DUP_STREAK)
        (DB.mk [dupPost] [] []) 0 0 0 0) :=
  ⟨fun sub hs => by rw [List.eq_of_mem_replicate hs]; decide,
   by rw [List.length_replicate]; decide,
   flair_scan_dup_streak_stop (DB.mk [dupPost] [] []) (List.replicate 2500 dupSub)
     (fun _ => 0) (fun _ => "t")
     (fun sub hs => by rw [List.eq_of_mem_replicate hs]; decide)
     (by rw [List.length_replicate]; decide)⟩

/-! Claim C3: error isolation within a popped crawl batch.  Row status is
observed through the first row carrying a key; the batch hypotheses are that
each popped key is present and the popped keys are pairwise distinct (they
come from a primary-keyed table). -/

def keyRow (q : List QueueRow) (k : String) : Option QueueRow :=
  q.find? (fun r => r.key = k)

theorem find_map_keyfix (f : QueueRow → QueueRow)
    (hf : ∀ r, (f r).key = r.key) (q : List QueueRow) (k : String) :
    (q.map f).find? (fun r => r.key = k) =
      (q.find? (fun r => r.key = k)).map f := by
  induction q with
  | nil => rfl
  | cons a q ih =>
    by_cases h : a.key = k
    · rw [List.map_cons, List.find?_cons_of_pos _ (by simp [hf, h]),
        List.find?_cons_of_pos _ (by simp [h])]
      rfl
    · rw [List.map_cons, List.find?_cons_of_neg _ (by simp [hf, h]),
        List.find?_cons_of_neg _ (by simp [h])]
      exact ih

theorem keyRow_mark_self (q : List QueueRow) (k st : String)
    (e : Option String) (now : String) (w : QueueRow)
    (hp : keyRow q k = some w) :
    keyRow (queue_mark q k st e now) k =
      some { w with status := st, last_error := e, updated_at_utc := now } := by
  unfold keyRow at hp ⊢
  unfold queue_mark
  rw [find_map_keyfix _ (fun r => by split <;> rfl), hp]
  have hk : w.key = k := by simpa using List.find?_some hp
  simp [hk]

theorem keyRow_mark_other (q : List QueueRow) (k k' st : String)
    (e : Option String) (now : String) (hne : k' ≠ k) :
    keyRow (queue_mark q k' st e now) k = keyRow q k := by
  unfold keyRow queue_mark
  rw [find_map_keyfix _ (fun r => by split <;> rfl)]
  cases hq : q.find? (fun r => r.key = k) with
  | none => rfl
  | some w =>
    have hk : w.key = k := by simpa using List.find?_some hq
    simp [hk, hne.symm]

theorem keyRow_add_of_present (q : List QueueRow) (k k' u : String)
    (d h m : Nat) (n : String) (hp : (keyRow q k).isSome) :
    keyRow (queue_add q k' u d h m n) k = keyRow q k := by
  unfold keyRow at hp ⊢
  unfold queue_add
  split
  · rfl
  · rw [List.find?_append]
    cases hq : q.find? (fun r => r.key = k) with
    | some v => rfl
    | none => rw [hq] at hp; simp at hp

theorem foldl_discoverStep_keyRow (pid : String) (depth : Nat) (now : String) :
    ∀ (urls : List String) (d : DB) (k : String), (keyRow d.queue k).isSome →
      keyRow ((urls.foldl (discoverStep pid depth now) d).queue) k = keyRow d.queue k := by
  intro urls
  induction urls with
  | nil => intro d k _; rfl
  | cons u rest ih =>
    intro d k hp
    rw [List.foldl_cons]
    have hstep : keyRow ((discoverStep pid depth now d u).queue) k = keyRow d.queue k := by
      simp only [discoverStep]
      split
      · exact keyRow_add_of_present _ _ _ _ _ _ _ _ hp
      · rfl
    rw [ih _ k (by rw [hstep]; exact hp), hstep]

theorem foldl_hubStep_keyRow (depth : Nat) (now : String) :
    ∀ (links : List String) (d : DB) (k : String), (keyRow d.queue k).isSome →
      keyRow ((links.foldl (hubStep depth now) d).queue) k = keyRow d.queue k := by
  intro links
  induction links with
  | nil => intro d k _; rfl
  | cons u rest ih =>
    intro d k hp
    rw [List.foldl_cons]
    have hstep : keyRow ((hubStep depth now d u).queue) k = keyRow d.queue k := by
      simp only [hubStep]
      exact keyRow_add_of_present _ _ _ _ _ _ _ _ hp
    rw [ih _ k (by rw [hstep]; exact hp), hstep]

theorem store_keyRow (db : DB) (s : Submission) (depth : Nat) (now : String)
    (k : String) (hp : (keyRow db.queue k).isSome) :
    keyRow ((store_submission_and_discover db s depth now).1.queue) k = keyRow db.queue k := by
  simp only [store_submission_and_discover]
  exact foldl_discoverStep_keyRow _ _ _ _ _ _ hp

theorem hubExpand_keyRow (db : DB) (r : QueueRow) (s : Submission) (now : String)
    (k : String) (hp : (keyRow db.queue k).isSome) :
    keyRow ((hubExpand db r s now).queue) k = keyRow db.queue k := by
  unfold hubExpand
  split
  · exact foldl_hubStep_keyRow _ _ _ _ _ hp
  · rfl

theorem crawlProcessOk_keyRow_self (db : DB) (r : QueueRow) (s : Submission)
    (now : String) (w : QueueRow) (hp : keyRow db.queue r.key = some w) :
    ∃ w2 : QueueRow, keyRow ((crawlProcessOk db r s now).queue) r.key = some w2 ∧
      w2.status = "done" ∧ w2.last_error = none := by
  unfold crawlProcessOk
  have h1 := store_keyRow db s r.depth now r.key (by rw [hp]; rfl)
  have h2 := hubExpand_keyRow (store_submission_and_discover db s r.depth now).1 r s now r.key
    (by rw [h1, hp]; rfl)
  rw [h1, hp] at h2
  exact ⟨_, keyRow_mark_self _ _ _ _ _ _ h2, rfl, rfl⟩

theorem crawlProcessOk_keyRow_other (db : DB) (r : QueueRow) (s : Submission)
    (now : String) (k : String) (hne : r.key ≠ k) (hp : (keyRow db.queue k).isSome) :
    keyRow ((crawlProcessOk db r s now).queue) k = keyRow db.queue k := by
  unfold crawlProcessOk
  have h1 := store_keyRow db s r.depth now k hp
  have h2 := hubExpand_keyRow (store_submission_and_discover db s r.depth now).1 r s now k
    (by rw [h1]; exact hp)
  rw [keyRow_mark_other _ _ _ _ _ _ hne, h2, h1]

theorem crawlProcessErrFetch_keyRow_self (db : DB) (r : QueueRow) (e : String)
    (now : String) (w : QueueRow) (hp : keyRow db.queue r.key = some w) :
    keyRow ((crawlProcessErrFetch db r e now).queue) r.key =
      some { w with status := "error", last_error := some (e.take 500), updated_at_utc := now } := by
  unfold crawlProcessErrFetch
  exact keyRow_mark_self _ _ _ _ _ _ hp

theorem crawlProcessErrFetch_keyRow_other (db : DB) (r : QueueRow) (e : String)
    (now : String) (k : String) (hne : r.key ≠ k) :
    keyRow ((crawlProcessErrFetch db r e now).queue) k = keyRow db.queue k := by
  unfold crawlProcessErrFetch
  exact keyRow_mark_other _ _ _ _ _ _ hne

/-- Whether the remote fetch of a popped item raised. -/
def fetchFailed : Except String Submission → Bool
  | .error _ => true
  | .ok _ => false

theorem processBatch_keyRow_untouched (clock : Nat → Int) (nowf : Nat → String) :
    ∀ (batch : List (QueueRow × Except String Submission)) (db : DB)
      (tick done errs : Nat) (k : String),
      (keyRow db.queue k).isSome →
      (∀ p ∈ batch, p.1.key ≠ k) →
      keyRow ((processBatch none clock nowf batch db tick done errs).1.queue) k =
        keyRow db.queue k := by
  intro batch
  induction batch with
  | nil => intro db tick done errs k _ _; rfl
  | cons p rest ih =>
    intro db tick done errs k hp hne
    rcases p with ⟨r, f⟩
    have hner : r.key ≠ k := hne ⟨r, f⟩ (by simp)
    cases f with
    | ok s =>
      rw [show processBatch none clock nowf ((r, Except.ok s) :: rest) db tick done errs =
        processBatch none clock nowf rest (crawlProcessOk db r s (nowf tick)) (tick+1) (done+1) errs from rfl]
      have hstep := crawlProcessOk_keyRow_other db r s (nowf tick) k hner hp
      rw [ih _ _ _ _ k (by rw [hstep]; exact hp) (fun q hq => hne q (by simp [hq])), hstep]
    | error e =>
      rw [show processBatch none clock nowf ((r, Except.error e) :: rest) db tick done errs =
        processBatch none clock nowf rest (crawlProcessErrFetch db r e (nowf tick)) (tick+1) done (errs+1) from rfl]
      have hstep := crawlProcessErrFetch_keyRow_other db r e (nowf tick) k hner
      rw [ih _ _ _ _ k (by rw [hstep]; exact hp) (fun q hq => hne q (by simp [hq])), hstep]

/-- Claim C3: processing a popped batch is error-isolated: a fetch failure on
one item marks only that item error (with the message truncated to 500
characters), every other item is still processed and ends done, the error
counter counts exactly the failed items and the done counter the rest. -/
theorem crawl_batch_error_isolation (clock : Nat → Int) (nowf : Nat → String)
    (batch : List (QueueRow × Except String Submission)) (db : DB)
    (tick done errs : Nat)
    (hpres : ∀ p ∈ batch, (keyRow db.queue p.1.key).isSome)
    (hdisj : batch.Pairwise (fun a b => a.1.key ≠ b.1.key)) :
    ((processBatch none clock nowf batch db tick done errs).2.2 =
      errs + (batch.filter (fun p => fetchFailed p.2)).length) ∧
    ((processBatch none clock nowf batch db tick done errs).2.1 =
      done + (batch.filter (fun p => !fetchFailed p.2)).length) ∧
    (∀ p ∈ batch, ∃ w : QueueRow,
      keyRow ((processBatch none clock nowf batch db tick done errs).1.queue) p.1.key = some w ∧
      w.status = (if fetchFailed p.2 then "error" else "done") ∧
      (∀ e, p.2 = Except.error e → w.last_error = some (e.take 500))) := by
  induction batch generalizing db tick done errs with
  | nil => exact ⟨by simp [processBatch], by simp [processBatch], by simp⟩
  | cons p rest ih =>
    rcases p with ⟨r, f⟩
    rcases List.pairwise_cons.mp hdisj with ⟨hhead, hrest⟩
    have hr : (keyRow db.queue r.key).isSome := hpres (r, f) (List.mem_cons_self _ _)
    obtain ⟨w, hw⟩ := Option.isSome_iff_exists.mp hr
    cases f with
    | ok s =>
      have hstep : processBatch none clock nowf ((r, Except.ok s) :: rest) db tick done errs =
          processBatch none clock nowf rest (crawlProcessOk db r s (nowf tick))
            (tick + 1) (done + 1) errs := rfl
      have hpres' : ∀ q ∈ rest,
          (keyRow (crawlProcessOk db r s (nowf tick)).queue q.1.key).isSome := by
        intro q hq
        have hq0 : (keyRow db.queue q.1.key).isSome :=
          hpres q (List.mem_cons_of_mem _ hq)
        rw [crawlProcessOk_keyRow_other db r s (nowf tick) q.1.key (hhead q hq) hq0]
        exact hq0
      have ihr := ih (crawlProcessOk db r s (nowf tick)) (tick + 1) (done + 1) errs
        hpres' hrest
      refine ⟨?_, ?_, ?_⟩
      · rw [hstep, ihr.1]
        simp [fetchFailed]
      · rw [hstep, ihr.2.1]
        simp [fetchFailed]
        omega
      · intro q hq
        rcases List.mem_cons.mp hq with hq1 | hq2
        · obtain ⟨w2, hw2, hst, herr⟩ := crawlProcessOk_keyRow_self db r s (nowf tick) w hw
          subst hq1
          rw [hstep, processBatch_keyRow_untouched clock nowf rest _ _ _ _ r.key
            (by rw [hw2]; rfl) (fun q hq => (hhead q hq).symm), hw2]
          refine ⟨w2, rfl, by simp [fetchFailed, hst], ?_⟩
          intro e he
          cases he
        · exact ihr.2.2 q hq2
    | error e =>
      have hstep : processBatch none clock nowf ((r, Except.error e) :: rest) db tick done errs =
          processBatch none clock nowf rest (crawlProcessErrFetch db r e (nowf tick))
            (tick + 1) done (errs + 1) := rfl
      have hpres' : ∀ q ∈ rest,
          (keyRow (crawlProcessErrFetch db r e (nowf tick)).queue q.1.key).isSome := by
        intro q hq
        rw [crawlProcessErrFetch_keyRow_other db r e (nowf tick) q.1.key (hhead q hq)]
        exact hpres q (List.mem_cons_of_mem _ hq)
      have ihr := ih (crawlProcessErrFetch db r e (nowf tick)) (tick + 1) done (errs + 1)
        hpres' hrest
      refine ⟨?_, ?_, ?_⟩
      · rw [hstep, ihr.1]
        simp [fetchFailed]
        omega
      · rw [hstep, ihr.2.1]
        simp [fetchFailed]
      · intro q hq
        rcases List.mem_cons.mp hq with hq1 | hq2
        · have hw2 := crawlProcessErrFetch_keyRow_self db r e (nowf tick) w hw
          subst hq1
          rw [hstep, processBatch_keyRow_untouched clock nowf rest _ _ _ _ r.key
            (by rw [hw2]; rfl) (fun q hq => (hhead q hq).symm), hw2]
          refine ⟨_, rfl, by simp [fetchFailed], ?_⟩
          intro e2 he2
          cases he2
          rfl
        · exact ihr.2.2 q hq2

def batchRow1 : QueueRow :=
  ⟨"k1aaa", "https://www.reddit.com/comments/k1aaa/x", 1, "queued", none, 0, 0, "t0", "t0"⟩

def batchRow2 : QueueRow :=
  ⟨"k2bbb", "https://www.reddit.com/comments/k2bbb/x", 1, "queued", none, 0, 0, "t1", "t1"⟩

def batchRow3 : QueueRow :=
  ⟨"k3ccc", "https://www.reddit.com/comments/k3ccc/x", 1, "queued", none, 0, 0, "t2", "t2"⟩

def batchSub : Submission :=
  ⟨"s1xyz", "Superstonk", 0, some "", some "", 0, 0, "/r/x", some "", none, none, []⟩

def sampleBatch : List (QueueRow × Except String Submission) :=
  [(batchRow1, Except.ok batchSub), (batchRow2, Except.error "fetch boom"),
   (batchRow3, Except.ok batchSub)]

def sampleCrawlDB : DB := ⟨[], [], [batchRow1, batchRow2, batchRow3]⟩

theorem crawl_batch_error_isolation_witness :
    (∀ p ∈ sampleBatch, (keyRow sampleCrawlDB.queue p.1.key).isSome) ∧
    sampleBatch.Pairwise (fun a b => a.1.key ≠ b.1.key) ∧
    (((processBatch none (fun _ => 0) (fun _ => "t") sampleBatch sampleCrawlDB 0 0 0).2.2 =
       0 + (sampleBatch.filter (fun p => fetchFailed p.2)).length) ∧
     ((processBatch none (fun _ => 0) (fun _ => "t") sampleBatch sampleCrawlDB 0 0 0).2.1 =
       0 + (sampleBatch.filter (fun p => !fetchFailed p.2)).length) ∧
     (∀ p ∈ sampleBatch, ∃ w : QueueRow,
       keyRow ((processBatch none (fun _ => 0) (fun _ => "t") sampleBatch sampleCrawlDB 0 0 0).1.queue) p.1.key = some w ∧
       w.status = (if fetchFailed p.2 then "error" else "done") ∧
       (∀ e, p.2 = Except.error e → w.last_error = some (e.take 500)))) :=
  ⟨by decide, by decide,
   crawl_batch_error_isolation (fun _ => 0) (fun _ => "t") sampleBatch sampleCrawlDB 0 0 0
     (by decide) (by decide)⟩

/-! Claims C1 and C10: invariants of every reachable crawl_queue state. -/

/-- The queue-row invariant maintained by every pipeline transition: depth is
bounded by MAX_CRAWL_DEPTH, and hub rows sit at depth 0. -/
def QInv (r : QueueRow) : Prop :=
  r.depth ≤ MAX_CRAWL_DEPTH ∧ (r.is_hub = 1 → r.depth = 0)

theorem queue_add_forall {P : QueueRow → Prop} (q : List QueueRow)
    (key url : String) (depth is_hub mcd : Nat) (now : String)
    (h : ∀ r ∈ q, P r)
    (hnew : P ⟨key, url, depth, "queued", none, is_hub, mcd, now, now⟩) :
    ∀ r ∈ queue_add q key url depth is_hub mcd now, P r := by
  unfold queue_add
  split
  · exact h
  · intro r hr
    rcases List.mem_append.mp hr with h1 | h2
    · exact h r h1
    · rw [List.mem_singleton.mp h2]
      exact hnew

theorem queue_mark_QInv (q : List QueueRow) (key status : String)
    (err : Option String) (now : String) (h : ∀ r ∈ q, QInv r) :
    ∀ r ∈ queue_mark q key status err now, QInv r := by
  intro r hr
  rcases List.mem_map.mp hr with ⟨r0, hr0, heq⟩
  have h0 := h r0 hr0
  rw [← heq]
  by_cases hk : r0.key = key
  · simp only [if_pos hk]
    exact h0
  · simp only [if_neg hk]
    exact h0

theorem queue_reset_QInv (q : List QueueRow) (now : String)
    (h : ∀ r ∈ q, QInv r) :
    ∀ r ∈ queue_reset_hubs q now, QInv r := by
  intro r hr
  rcases List.mem_map.mp hr with ⟨r0, hr0, heq⟩
  have h0 := h r0 hr0
  rw [← heq]
  by_cases hk : r0.is_hub = 1
  · simp only [if_pos hk]
    exact ⟨h0.1, fun _ => h0.2 hk⟩
  · simp only [if_neg hk]
    exact h0

theorem discoverStep_QInv (pid : String) (depth : Nat) (now : String)
    (d : DB) (u : String) (hd : ∀ r ∈ d.queue, QInv r) :
    ∀ r ∈ (discoverStep pid depth now d u).queue, QInv r := by
  unfold discoverStep
  split
  · next hcond =>
    apply queue_add_forall _ _ _ _ _ _ _ hd
    have hlt : depth < MAX_CRAWL_DEPTH := by
      have := (Bool.and_eq_true _ _).mp hcond
      exact of_decide_eq_true this.1
    exact ⟨hlt, by intro hfalse; simp at hfalse⟩
  · exact hd

theorem foldl_discoverStep_QInv (pid : String) (depth : Nat) (now : String) :
    ∀ (urls : List String) (d : DB), (∀ r ∈ d.queue, QInv r) →
      ∀ r ∈ ((urls.foldl (discoverStep pid depth now) d).queue), QInv r := by
  intro urls
  induction urls with
  | nil => intro d hd; exact hd
  | cons u rest ih =>
    intro d hd
    rw [List.foldl_cons]
    exact ih _ (discoverStep_QInv pid depth now d u hd)

theorem hubStep_QInv (depth : Nat) (now : String) (d : DB) (u : String)
    (hdep : depth + 1 ≤ MAX_CRAWL_DEPTH) (hd : ∀ r ∈ d.queue, QInv r) :
    ∀ r ∈ (hubStep depth now d u).queue, QInv r := by
  unfold hubStep
  apply queue_add_forall _ _ _ _ _ _ _ hd
  exact ⟨hdep, by intro hfalse; simp at hfalse⟩

theorem foldl_hubStep_QInv (depth : Nat) (now : String)
    (hdep : depth + 1 ≤ MAX_CRAWL_DEPTH) :
    ∀ (links : List String) (d : DB), (∀ r ∈ d.queue, QInv r) →
      ∀ r ∈ ((links.foldl (hubStep depth now) d).queue), QInv r := by
  intro links
  induction links with
  | nil => intro d hd; exact hd
  | cons u rest ih =>
    intro d hd
    rw [List.foldl_cons]
    exact ih _ (hubStep_QInv depth now d u hdep hd)

theorem store_QInv (db : DB) (s : Submission) (depth : Nat) (now : String)
    (hd : ∀ r ∈ db.queue, QInv r) :
    ∀ r ∈ ((store_submission_and_discover db s depth now).1.queue), QInv r := by
  simp only [store_submission_and_discover]
  exact foldl_discoverStep_QInv _ _ _ _ _ hd

theorem hubExpand_QInv (db : DB) (r : QueueRow) (s : Submission) (now : String)
    (hr : QInv r) (hd : ∀ x ∈ db.queue, QInv x) :
    ∀ x ∈ ((hubExpand db r s now).queue), QInv x := by
  unfold hubExpand
  split
  · next hcond =>
    have hhub : r.is_hub = 1 := by
      have := (Bool.and_eq_true _ _).mp hcond
      exact of_decide_eq_true this.1
    have hdep0 : r.depth = 0 := hr.2 hhub
    apply foldl_hubStep_QInv r.depth now _ _ _ hd
    rw [hdep0]
    simp [MAX_CRAWL_DEPTH]
  · exact hd

theorem crawlProcessOk_QInv (db : DB) (r : QueueRow) (s : Submission)
    (now : String) (hmem : r ∈ db.queue) (hd : ∀ x ∈ db.queue, QInv x) :
    ∀ x ∈ ((crawlProcessOk db r s now).queue), QInv x := by
  unfold crawlProcessOk
  apply queue_mark_QInv
  exact hubExpand_QInv _ r s now (hd r hmem) (store_QInv db s r.depth now hd)

theorem crawlProcessErrFetch_QInv (db : DB) (r : QueueRow) (e : String)
    (now : String) (hd : ∀ x ∈ db.queue, QInv x) :
    ∀ x ∈ ((crawlProcessErrFetch db r e now).queue), QInv x := by
  unfold crawlProcessErrFetch
  exact queue_mark_QInv _ _ _ _ _ hd

theorem crawlProcessErrExpand_QInv (db : DB) (r : QueueRow) (s : Submission)
    (e : String) (now : String) (hd : ∀ x ∈ db.queue, QInv x) :
    ∀ x ∈ ((crawlProcessErrExpand db r s e now).queue), QInv x := by
  unfold crawlProcessErrExpand
  exact queue_mark_QInv _ _ _ _ _ (store_QInv db s r.depth now hd)

/-- The pipeline invariant: every row of every reachable crawl_queue state
satisfies the depth bound and the hub-depth-zero property. -/
theorem reach_QInv (db : DB) (h : Reach db) : ∀ r ∈ db.queue, QInv r := by
  induction h with
  | init => intro r hr; cases hr
  | flair db s now _ ih => exact store_QInv db s 0 now ih
  | hubSeed db s now _ ih =>
    apply queue_add_forall _ _ _ _ _ _ _ ih
    exact ⟨by simp [MAX_CRAWL_DEPTH], fun _ => rfl⟩
  | crawlOk db r s now _ hmem _ ih => exact crawlProcessOk_QInv db r s now hmem ih
  | crawlErrFetch db r e now _ _ _ ih => exact crawlProcessErrFetch_QInv db r e now ih
  | crawlErrExpand db r s e now _ _ _ ih => exact crawlProcessErrExpand_QInv db r s e now ih
  | resetHubs db now _ ih => exact queue_reset_QInv _ now ih

theorem discoverStep_queue_at_max (pid : String) (depth : Nat) (now : String)
    (d : DB) (u : String) (hmax : ¬ depth < MAX_CRAWL_DEPTH) :
    (discoverStep pid depth now d u).queue = d.queue := by
  unfold discoverStep
  rw [if_neg (by simp [hmax])]

theorem foldl_discoverStep_queue_at_max (pid : String) (depth : Nat)
    (now : String) (hmax : ¬ depth < MAX_CRAWL_DEPTH) :
    ∀ (urls : List String) (d : DB),
      (urls.foldl (discoverStep pid depth now) d).queue = d.queue := by
  intro urls
  induction urls with
  | nil => intro d; rfl
  | cons u rest ih =>
    intro d
    rw [List.foldl_cons, ih, discoverStep_queue_at_max pid depth now d u hmax]

theorem store_queue_at_max (db : DB) (s : Submission) (depth : Nat)
    (now : String) (hmax : ¬ depth < MAX_CRAWL_DEPTH) :
    (store_submission_and_discover db s depth now).1.queue = db.queue := by
  simp only [store_submission_and_discover]
  rw [foldl_discoverStep_queue_at_max _ _ _ hmax]

theorem hubExpand_queue_nonhub (db : DB) (r : QueueRow) (s : Submission)
    (now : String) (hnh : r.is_hub ≠ 1) :
    (hubExpand db r s now).queue = db.queue := by
  unfold hubExpand
  rw [if_neg (by simp [hnh])]

theorem queue_mark_keys (q : List QueueRow) (k st : String) (e : Option String)
    (n : String) :
    (queue_mark q k st e n).map (fun x => x.key) = q.map (fun x => x.key) := by
  unfold queue_mark
  rw [List.map_map]
  apply List.map_congr_left
  intro r _
  by_cases h : r.key = k
  · simp [h]
  · simp [if_neg h]

/-- Claim C1: in every reachable crawl_queue state every row's depth is at
most MAX_CRAWL_DEPTH, and processing a source item whose depth already
equals MAX_CRAWL_DEPTH enqueues nothing new — the key list of the queue is
unchanged on both the success path and the error-after-store path. -/
theorem reachable_depth_bound (db : DB) (h : Reach db) :
    (∀ r ∈ db.queue, r.depth ≤ MAX_CRAWL_DEPTH) ∧
    (∀ (r : QueueRow) (s : Submission) (e now : String), r ∈ db.queue →
      r.depth = MAX_CRAWL_DEPTH →
      (crawlProcessOk db r s now).queue.map (fun x => x.key) =
        db.queue.map (fun x => x.key) ∧
      (crawlProcessErrExpand db r s e now).queue.map (fun x => x.key) =
        db.queue.map (fun x => x.key)) := by
  have hinv := reach_QInv db h
  constructor
  · intro r hr; exact (hinv r hr).1
  · intro r s e now hmem hdep
    have hnh : r.is_hub ≠ 1 := by
      intro hh
      have h0 := (hinv r hmem).2 hh
      rw [hdep] at h0
      simp [MAX_CRAWL_DEPTH] at h0
    have hmax : ¬ r.depth < MAX_CRAWL_DEPTH := by
      rw [hdep]; exact Nat.lt_irrefl _
    constructor
    · unfold crawlProcessOk
      rw [queue_mark_keys, hubExpand_queue_nonhub _ _ _ _ hnh,
        store_queue_at_max _ _ _ _ hmax]
    · unfold crawlProcessErrExpand
      rw [queue_mark_keys, store_queue_at_max _ _ _ _ hmax]

def witSub : Submission :=
  ⟨"hub01", "Superstonk", 0, some "", some "", 0, 0, "/r/hub", some "", none, none, []⟩

def witDB : DB :=
  { DB.empty with queue := (queue_add DB.empty.queue witSub.id
      ("https://www.reddit.com" ++ witSub.permalink) 0 1 HUB_REPLY_DEPTH "t0") }

theorem witDB_reach : Reach witDB := Reach.hubSeed DB.empty witSub "t0" Reach.init

theorem reachable_depth_bound_witness :
    Reach witDB ∧
    ((∀ r ∈ witDB.queue, r.depth ≤ MAX_CRAWL_DEPTH) ∧
     (∀ (r : QueueRow) (s : Submission) (e now : String), r ∈ witDB.queue →
       r.depth = MAX_CRAWL_DEPTH →
       (crawlProcessOk witDB r s now).queue.map (fun x => x.key) =
         witDB.queue.map (fun x => x.key) ∧
       (crawlProcessErrExpand witDB r s e now).queue.map (fun x => x.key) =
         witDB.queue.map (fun x => x.key))) :=
  ⟨witDB_reach, reachable_depth_bound witDB witDB_reach⟩

theorem queue_add_mem_cases (q : List QueueRow) (k u : String)
    (d ih m : Nat) (n : String) (r : QueueRow)
    (hr : r ∈ queue_add q k u d ih m n) :
    r ∈ q ∨ (r.depth = d ∧ r.is_hub = ih) := by
  unfold queue_add at hr
  split at hr
  · exact Or.inl hr
  · rcases List.mem_append.mp hr with h1 | h2
    · exact Or.inl h1
    · rw [List.mem_singleton.mp h2]
      exact Or.inr ⟨rfl, rfl⟩

theorem foldl_discoverStep_mem (pid : String) (depth : Nat) (now : String) :
    ∀ (urls : List String) (d : DB) (x : QueueRow),
      x ∈ (urls.foldl (discoverStep pid depth now) d).queue →
      x ∈ d.queue ∨ (x.depth = depth + 1 ∧ x.is_hub = 0) := by
  intro urls
  induction urls with
  | nil => intro d x hx; exact Or.inl hx
  | cons u rest ih =>
    intro d x hx
    rw [List.foldl_cons] at hx
    rcases ih _ x hx with h1 | h2
    · revert h1
      simp only [discoverStep]
      split
      · intro h1
        exact queue_add_mem_cases _ _ _ _ _ _ _ _ h1
      · intro h1
        exact Or.inl h1
    · exact Or.inr h2

theorem foldl_hubStep_mem (depth : Nat) (now : String) :
    ∀ (links : List String) (d : DB) (x : QueueRow),
      x ∈ (links.foldl (hubStep depth now) d).queue →
      x ∈ d.queue ∨ (x.depth = depth + 1 ∧ x.is_hub = 0) := by
  intro links
  induction links with
  | nil => intro d x hx; exact Or.inl hx
  | cons u rest ih =>
    intro d x hx
    rw [List.foldl_cons] at hx
    rcases ih _ x hx with h1 | h2
    · simp only [hubStep] at h1
      exact queue_add_mem_cases _ _ _ _ _ _ _ _ h1
    · exact Or.inr h2

theorem store_mem (db : DB) (s : Submission) (depth : Nat) (now : String)
    (x : QueueRow) (hx : x ∈ (store_submission_and_discover db s depth now).1.queue) :
    x ∈ db.queue ∨ (x.depth = depth + 1 ∧ x.is_hub = 0) := by
  simp only [store_submission_and_discover] at hx
  have h2 := foldl_discoverStep_mem s.id depth now
    (sortedDedupStr (extract_urls (s.title.getD "") ++ extract_urls (s.selftext.getD "") ++
      extract_urls (s.url.getD ""))) _ x hx
  exact h2

theorem hubExpand_mem (db : DB) (r : QueueRow) (s : Submission) (now : String)
    (x : QueueRow) (hx : x ∈ (hubExpand db r s now).queue) :
    x ∈ db.queue ∨ (x.depth = r.depth + 1 ∧ x.is_hub = 0) := by
  unfold hubExpand at hx
  split at hx
  · exact foldl_hubStep_mem _ _ _ _ _ hx
  · exact Or.inl hx

theorem queue_mark_mem (q : List QueueRow) (k st : String) (e : Option String)
    (n : String) (x : QueueRow) (hx : x ∈ queue_mark q k st e n) :
    ∃ y ∈ q, x.key = y.key ∧ x.depth = y.depth ∧ x.is_hub = y.is_hub := by
  unfold queue_mark at hx
  rcases List.mem_map.mp hx with ⟨y, hy, heq⟩
  refine ⟨y, hy, ?_⟩
  rw [← heq]
  by_cases h : y.key = k
  · simp [if_pos h]
  · simp [if_neg h]

/-- Claim C10: in every reachable crawl_queue state every hub row has depth
0; consequently, when queue crawl processes a hub item, every row of the
resulting queue whose key is new (absent from the previous state) was
enqueued at depth 1. -/
theorem reachable_hub_rows_depth_zero (db : DB) (h : Reach db) :
    (∀ r ∈ db.queue, r.is_hub = 1 → r.depth = 0) ∧
    (∀ (r : QueueRow) (s : Submission) (now : String), r ∈ db.queue →
      r.is_hub = 1 →
      ∀ x ∈ (crawlProcessOk db r s now).queue,
        (∀ y ∈ db.queue, y.key ≠ x.key) → x.depth = 1) := by
  have hinv := reach_QInv db h
  constructor
  · intro r hr; exact (hinv r hr).2
  · intro r s now hmem hhub x hx hnew
    have hdep0 : r.depth = 0 := (hinv r hmem).2 hhub
    unfold crawlProcessOk at hx
    obtain ⟨y, hy, hkey, hdepth, _⟩ := queue_mark_mem _ _ _ _ _ _ hx
    rcases hubExpand_mem _ _ _ _ _ hy with hy1 | hy2
    · rcases store_mem _ _ _ _ _ hy1 with hy11 | hy12
      · exact absurd hkey.symm (hnew y hy11)
      · rw [hdepth, hy12.1, hdep0]
    · rw [hdepth, hy2.1, hdep0]

theorem reachable_hub_rows_depth_zero_witness :
    Reach witDB ∧
    ((∀ r ∈ witDB.queue, r.is_hub = 1 → r.depth = 0) ∧
     (∀ (r : QueueRow) (s : Submission) (now : String), r ∈ witDB.queue →
       r.is_hub = 1 →
       ∀ x ∈ (crawlProcessOk witDB r s now).queue,
         (∀ y ∈ witDB.queue, y.key ≠ x.key) → x.depth = 1)) :=
  ⟨witDB_reach, reachable_hub_rows_depth_zero witDB witDB_reach⟩

/-! Claims C6 and C8: properties of normalize_reddit_url.  The heart is a
theory of Python str.replace: with the concrete pattern old.reddit.com and
replacement www.reddit.com, a replaced string contains no occurrence of the
pattern, prefixes free of the replacement head character trace back to the
input, and the ends of the string are preserved up to known characters. -/

theorem replaceGo_fuel (pat rep : List Char) (hpat : pat ≠ []) :
    ∀ (n m : Nat) (s : List Char), s.length ≤ n → s.length ≤ m →
      replaceGo pat rep n s = replaceGo pat rep m s := by
  intro n
  induction n with
  | zero =>
    intro m s hn _
    have hs : s = [] := List.eq_nil_of_length_eq_zero (Nat.le_zero.mp hn)
    subst hs
    cases m <;> rfl
  | succ n ih =>
    intro m s hn hm
    cases s with
    | nil => cases m <;> rfl
    | cons c cs =>
      cases m with
      | zero => simp at hm
      | succ m' =>
        have hplen : 1 ≤ pat.length := by
          cases pat with
          | nil => exact absurd rfl hpat
          | cons a l => simp
        by_cases hpre : pat.isPrefixOf (c :: cs) = true
        · simp only [replaceGo, hpre, if_true, if_pos rfl]
          refine congrArg (fun t => rep ++ t) (ih m' _ ?_ ?_)
          · rw [List.length_drop]
            simp only [List.length_cons] at hn ⊢
            omega
          · rw [List.length_drop]
            simp only [List.length_cons] at hm ⊢
            omega
        · have hpre' : pat.isPrefixOf (c :: cs) = false := Bool.eq_false_iff.mpr hpre
          simp only [replaceGo, hpre', Bool.false_eq_true, if_false]
          refine congrArg (fun t => c :: t) (ih m' _ ?_ ?_)
          · simp only [List.length_cons] at hn; omega
          · simp only [List.length_cons] at hm; omega

theorem replaceL_pos (pat rep : List Char) (hpat : pat ≠ []) (c : Char)
    (cs : List Char) (h : pat.isPrefixOf (c :: cs) = true) :
    replaceL pat rep (c :: cs) = rep ++ replaceL pat rep ((c :: cs).drop pat.length) := by
  have hplen : 1 ≤ pat.length := by
    cases pat with
    | nil => exact absurd rfl hpat
    | cons a l => simp
  unfold replaceL
  simp only [List.length_cons, replaceGo, h, if_true, if_pos rfl]
  refine congrArg (fun t => rep ++ t) (replaceGo_fuel pat rep hpat _ _ _ ?_ ?_)
  · rw [List.length_drop]
    simp only [List.length_cons]
    omega
  · exact Nat.le_refl _

theorem replaceL_neg (pat rep : List Char) (c : Char) (cs : List Char)
    (h : pat.isPrefixOf (c :: cs) = false) :
    replaceL pat rep (c :: cs) = c :: replaceL pat rep cs := by
  unfold replaceL
  simp only [List.length_cons, replaceGo, h, Bool.false_eq_true, if_false]

theorem containsSub_append_cases (p : List Char) :
    ∀ (A B : List Char), containsSub p (A ++ B) = true →
      (∃ a, a <:+ A ∧ a ≠ [] ∧ p <+: (a ++ B)) ∨ containsSub p B = true := by
  intro A
  induction A with
  | nil => intro B h; exact Or.inr (by simpa using h)
  | cons c A' ih =>
    intro B h
    rw [List.cons_append] at h
    rw [show containsSub p (c :: (A' ++ B)) =
      (p.isPrefixOf (c :: (A' ++ B)) || containsSub p (A' ++ B)) from rfl] at h
    rcases (Bool.or_eq_true _ _).mp h with h1 | h2
    · left
      refine ⟨c :: A', List.suffix_refl _, by simp, ?_⟩
      rw [List.cons_append]
      exact List.isPrefixOf_iff_prefix.mp h1
    · rcases ih B h2 with ⟨a, ha1, ha2, ha3⟩ | hB
      · exact Or.inl ⟨a, ha1.trans (List.suffix_cons c A'), ha2, ha3⟩
      · exact Or.inr hB

theorem containsSub_of_prefix (p s : List Char) (h : p <+: s) :
    containsSub p s = true := by
  cases s with
  | nil =>
    have : p = [] := List.prefix_nil.mp h
    simp [this, containsSub]
  | cons c cs =>
    simp only [containsSub, Bool.or_eq_true]
    exact Or.inl (List.isPrefixOf_iff_prefix.mpr h)

theorem containsSub_append_right (p B : List Char) (h : containsSub p B = true) :
    ∀ A, containsSub p (A ++ B) = true := by
  intro A
  induction A with
  | nil => simpa using h
  | cons c A' ih =>
    rw [List.cons_append]
    simp only [containsSub, Bool.or_eq_true]
    exact Or.inr ih

theorem prefix_append_cases (q : List Char) :
    ∀ (A B : List Char), q <+: A ++ B →
      q <+: A ∨ (A <+: q ∧ q.drop A.length <+: B) := by
  intro A
  induction A generalizing q with
  | nil =>
    intro B h
    exact Or.inr ⟨List.nil_prefix, by simpa using h⟩
  | cons c A' ih =>
    intro B h
    cases q with
    | nil => exact Or.inl List.nil_prefix
    | cons d q' =>
      rw [List.cons_append] at h
      rcases List.cons_prefix_cons.mp h with ⟨heq, h2⟩
      subst heq
      rcases ih q' B h2 with h3 | ⟨h4, h5⟩
      · exact Or.inl (List.cons_prefix_cons.mpr ⟨rfl, h3⟩)
      · refine Or.inr ⟨List.cons_prefix_cons.mpr ⟨rfl, h4⟩, ?_⟩
        simpa using h5

theorem replaceGo_old_pos (n : Nat) (c : Char) (cs : List Char)
    (hm : oldD.isPrefixOf (c :: cs) = true) :
    replaceGo oldD wwwD (n + 1) (c :: cs) =
      wwwD ++ replaceGo oldD wwwD n ((c :: cs).drop oldD.length) := by
  simp only [replaceGo, hm, if_true, if_pos rfl]

theorem replaceGo_old_neg (n : Nat) (c : Char) (cs : List Char)
    (hm : oldD.isPrefixOf (c :: cs) = false) :
    replaceGo oldD wwwD (n + 1) (c :: cs) = c :: replaceGo oldD wwwD n cs := by
  simp only [replaceGo, hm, Bool.false_eq_true, if_false]

theorem prefix_through_replaceGo :
    ∀ (n : Nat) (s q : List Char), s.length ≤ n → 'w' ∉ q →
      q <+: replaceGo oldD wwwD n s → q <+: s := by
  intro n
  induction n with
  | zero =>
    intro s q hlen _ h
    have hs : s = [] := List.eq_nil_of_length_eq_zero (Nat.le_zero.mp hlen)
    subst hs
    exact h
  | succ n ih =>
    intro s q hlen hw h
    cases s with
    | nil => exact h
    | cons c cs =>
      by_cases hm : oldD.isPrefixOf (c :: cs) = true
      · rw [replaceGo_old_pos n c cs hm] at h
        cases q with
        | nil => exact List.nil_prefix
        | cons d q' =>
          exfalso
          have hwww : wwwD = 'w' :: "ww.reddit.com".data := by decide
          rw [hwww, List.cons_append] at h
          rcases List.cons_prefix_cons.mp h with ⟨hd, _⟩
          exact hw (hd ▸ List.mem_cons_self d q')
      · have hm' : oldD.isPrefixOf (c :: cs) = false := Bool.eq_false_iff.mpr hm
        rw [replaceGo_old_neg n c cs hm'] at h
        cases q with
        | nil => exact List.nil_prefix
        | cons d q' =>
          rcases List.cons_prefix_cons.mp h with ⟨hd, h2⟩
          have h3 : q' <+: cs := by
            apply ih cs q' _ (fun hx => hw (List.mem_cons_of_mem _ hx)) h2
            simp only [List.length_cons] at hlen
            omega
          exact List.cons_prefix_cons.mpr ⟨hd, h3⟩

theorem prefix_through_replaceL (s q : List Char) (hw : 'w' ∉ q)
    (h : q <+: replaceL oldD wwwD s) : q <+: s :=
  prefix_through_replaceGo s.length s q (Nat.le_refl _) hw h

theorem containsSub_old_replaceGo :
    ∀ (n : Nat) (s : List Char), s.length ≤ n →
      containsSub oldD (replaceGo oldD wwwD n s) = false := by
  intro n
  induction n with
  | zero =>
    intro s hlen
    have hs : s = [] := List.eq_nil_of_length_eq_zero (Nat.le_zero.mp hlen)
    subst hs
    decide
  | succ n ih =>
    intro s hlen
    cases s with
    | nil => exact (by decide : containsSub oldD [] = false)
    | cons c cs =>
      by_cases hm : oldD.isPrefixOf (c :: cs) = true
      · rw [replaceGo_old_pos n c cs hm]
        apply Bool.eq_false_iff.mpr
        intro htrue
        have hdroplen : ((c :: cs).drop oldD.length).length ≤ n := by
          rw [List.length_drop]
          simp only [List.length_cons] at hlen ⊢
          have : 1 ≤ oldD.length := by decide
          omega
        rcases containsSub_append_cases oldD wwwD _ htrue with ⟨a, ha1, ha2, ha3⟩ | hX
        · rcases prefix_append_cases oldD a _ ha3 with h1 | ⟨h4, _⟩
          · -- an occurrence that would lie inside the replacement
            have l1 : oldD.length ≤ a.length := h1.length_le
            have l2 : a.length ≤ wwwD.length := ha1.length_le
            have l3 : a = wwwD := ha1.eq_of_length (by
              have e1 : oldD.length = 14 := by decide
              have e2 : wwwD.length = 14 := by decide
              omega)
            subst l3
            have l4 : oldD = wwwD := h1.eq_of_length (by decide)
            exact absurd l4 (by decide)
          · -- an occurrence spanning the seam after the replacement
            have hk : a = oldD.take a.length := List.prefix_iff_eq_take.mp h4
            have hlen1 : 1 ≤ a.length := List.length_pos.mpr ha2
            have hlen2 : a.length ≤ oldD.length := h4.length_le
            have hdec : ∀ k, k < 15 → k = 0 ∨ (oldD.take k).isSuffixOf wwwD = false := by
              decide
            have e1 : oldD.length = 14 := by decide
            rcases hdec a.length (by omega) with h0 | hsuf
            · omega
            · have hsome : (oldD.take a.length).isSuffixOf wwwD = true :=
                List.isSuffixOf_iff_suffix.mpr (hk ▸ ha1)
              rw [hsuf] at hsome
              simp at hsome
        · have hfalse := ih _ hdroplen
          rw [hfalse] at hX
          simp at hX
      · have hm' : oldD.isPrefixOf (c :: cs) = false := Bool.eq_false_iff.mpr hm
        rw [replaceGo_old_neg n c cs hm']
        apply Bool.eq_false_iff.mpr
        intro htrue
        rw [show containsSub oldD (c :: replaceGo oldD wwwD n cs) =
          (oldD.isPrefixOf (c :: replaceGo oldD wwwD n cs) ||
            containsSub oldD (replaceGo oldD wwwD n cs)) from rfl] at htrue
        have hcslen : cs.length ≤ n := by
          simp only [List.length_cons] at hlen
          omega
        rcases (Bool.or_eq_true _ _).mp htrue with h1 | h2
        · have hold : oldD = 'o' :: "ld.reddit.com".data := by decide
          have hp := List.isPrefixOf_iff_prefix.mp h1
          rw [hold] at hp
          rcases List.cons_prefix_cons.mp hp with ⟨hc, htail⟩
          have htail2 : "ld.reddit.com".data <+: cs :=
            prefix_through_replaceGo n cs _ hcslen (by decide) htail
          have : oldD.isPrefixOf (c :: cs) = true := by
            apply List.isPrefixOf_iff_prefix.mpr
            rw [hold]
            exact List.cons_prefix_cons.mpr ⟨hc, htail2⟩
          rw [hm'] at this
          simp at this
        · have hfalse := ih cs hcslen
          rw [hfalse] at h2
          simp at h2

theorem containsSub_old_replaceL (s : List Char) :
    containsSub oldD (replaceL oldD wwwD s) = false :=
  containsSub_old_replaceGo s.length s (Nat.le_refl _)

theorem containsSub_old_https_append (x : List Char) :
    containsSub oldD (httpsD ++ x) = containsSub oldD x := by
  cases hx : containsSub oldD x with
  | true => exact containsSub_append_right _ _ hx httpsD
  | false =>
    apply Bool.eq_false_iff.mpr
    intro htrue
    rcases containsSub_append_cases oldD httpsD x htrue with ⟨a, ha1, ha2, ha3⟩ | hX
    · rcases prefix_append_cases oldD a x ha3 with h1 | ⟨h4, _⟩
      · have l1 : oldD.length ≤ a.length := h1.length_le
        have l2 : a.length ≤ httpsD.length := ha1.length_le
        have e1 : oldD.length = 14 := by decide
        have e2 : httpsD.length = 8 := by decide
        omega
      · have hk : a = oldD.take a.length := List.prefix_iff_eq_take.mp h4
        have hlen1 : 1 ≤ a.length := List.length_pos.mpr ha2
        have hlen2 : a.length ≤ oldD.length := h4.length_le
        have e1 : oldD.length = 14 := by decide
        have hdec : ∀ k, k < 15 → k = 0 ∨ (oldD.take k).isSuffixOf httpsD = false := by
          decide
        rcases hdec a.length (by omega) with h0 | hsuf
        · omega
        · have hsome := List.isSuffixOf_iff_suffix.mpr (hk ▸ ha1)
          rw [hsuf] at hsome
          simp at hsome
    · rw [hx] at hX
      simp at hX

theorem http_not_prefix_https_append (x : List Char) :
    httpD.isPrefixOf (httpsD ++ x) = false := by
  apply Bool.eq_false_iff.mpr
  intro htrue
  have hp := List.isPrefixOf_iff_prefix.mp htrue
  rcases prefix_append_cases httpD httpsD x hp with h1 | ⟨h2, _⟩
  · exact absurd (List.isPrefixOf_iff_prefix.mpr h1) (by decide)
  · have := h2.length_le
    have e1 : httpD.length = 7 := by decide
    have e2 : httpsD.length = 8 := by decide
    omega

theorem replaceL_append_noO :
    ∀ (q y : List Char), 'o' ∉ q →
      replaceL oldD wwwD (q ++ y) = q ++ replaceL oldD wwwD y := by
  intro q
  induction q with
  | nil => intro y _; simp
  | cons c q' ih =>
    intro y hq
    have hm : oldD.isPrefixOf (c :: (q' ++ y)) = false := by
      apply Bool.eq_false_iff.mpr
      intro htrue
      have hold : oldD = 'o' :: "ld.reddit.com".data := by decide
      have hp := List.isPrefixOf_iff_prefix.mp htrue
      rw [hold] at hp
      rcases List.cons_prefix_cons.mp hp with ⟨hc, _⟩
      exact hq (by rw [← hc]; exact List.mem_cons_self _ _)
    rw [List.cons_append, replaceL_neg oldD wwwD _ _ hm,
      ih y (fun hx => hq (List.mem_cons_of_mem _ hx)), List.cons_append]

/-- The two ends of the string carry no Python whitespace. -/
def noSpaceEnds (s : List Char) : Prop :=
  (∀ c ∈ s.head?, pySpace c = false) ∧ (∀ c ∈ s.getLast?, pySpace c = false)

theorem dropWhile_head_not (p : Char → Bool) :
    ∀ (l : List Char), ∀ c ∈ (l.dropWhile p).head?, p c = false := by
  intro l
  induction l with
  | nil => intro c hc; simp at hc
  | cons a l ih =>
    intro c hc
    rw [List.dropWhile_cons] at hc
    by_cases ha : p a = true
    · rw [if_pos ha] at hc
      exact ih c hc
    · rw [if_neg ha] at hc
      simp only [List.head?_cons, Option.mem_def, Option.some.injEq] at hc
      rw [← hc]
      exact Bool.eq_false_iff.mpr ha

theorem prefix_head_eq (q t : List Char) (hq : q <+: t) (c : Char)
    (hc : q.head? = some c) : t.head? = some c := by
  cases q with
  | nil => simp at hc
  | cons d q' =>
    cases t with
    | nil => simp at hq
    | cons e t' =>
      rcases List.cons_prefix_cons.mp hq with ⟨heq, _⟩
      simp only [List.head?_cons, Option.some.injEq] at hc ⊢
      rw [← heq]
      exact hc

theorem pyStrip_noSpaceEnds (s : List Char) : noSpaceEnds (pyStrip s) := by
  constructor
  · intro c hc
    have hsuf : ((s.dropWhile pySpace).reverse.dropWhile pySpace) <:+
        (s.dropWhile pySpace).reverse := List.dropWhile_suffix _
    have hpre : pyStrip s <+: s.dropWhile pySpace := by
      rcases hsuf with ⟨pre, hpre⟩
      exact ⟨pre.reverse, by
        unfold pyStrip
        rw [← List.reverse_append, hpre, List.reverse_reverse]⟩
    have h2 := prefix_head_eq _ _ hpre c hc
    exact dropWhile_head_not pySpace s c h2
  · intro c hc
    have h1 : (pyStrip s).reverse = (s.dropWhile pySpace).reverse.dropWhile pySpace := by
      unfold pyStrip
      rw [List.reverse_reverse]
    have h2 : (pyStrip s).reverse.head? = some c := by
      rw [List.head?_reverse]
      exact hc
    rw [h1] at h2
    exact dropWhile_head_not pySpace _ c h2

theorem pyStrip_id (s : List Char) (h : noSpaceEnds s) : pyStrip s = s := by
  have h1 : s.dropWhile pySpace = s := by
    cases s with
    | nil => rfl
    | cons a l =>
      have ha := h.1 a (by simp)
      rw [List.dropWhile_cons, if_neg (by simp [ha])]
  unfold pyStrip
  rw [h1]
  have h2 : s.reverse.dropWhile pySpace = s.reverse := by
    cases hr : s.reverse with
    | nil => rfl
    | cons a l =>
      have ha0 : s.getLast? = some a := by
        rw [List.getLast?_eq_head?_reverse, hr]
        rfl
      have ha := h.2 a ha0
      rw [List.dropWhile_cons, if_neg (by simp [ha])]
  rw [h2, List.reverse_reverse]

theorem getLast?_drop_of_ne_nil (l : List Char) (n : Nat) (h : l.drop n ≠ []) :
    (l.drop n).getLast? = l.getLast? := by
  conv_rhs => rw [← List.take_append_drop n l]
  rw [List.getLast?_append]
  cases hd : (l.drop n).getLast? with
  | none => exact absurd (List.getLast?_eq_none_iff.mp hd) h
  | some v => rfl

theorem replaceGo_nil_iff (n : Nat) (s : List Char) (hlen : s.length ≤ n) :
    replaceGo oldD wwwD n s = [] ↔ s = [] := by
  constructor
  · intro h
    cases s with
    | nil => rfl
    | cons c cs =>
      cases n with
      | zero => simp at hlen
      | succ n =>
        by_cases hm : oldD.isPrefixOf (c :: cs) = true
        · rw [replaceGo_old_pos _ _ _ hm] at h
          exact absurd (List.append_eq_nil.mp h).1 (by decide)
        · rw [replaceGo_old_neg _ _ _ (Bool.eq_false_iff.mpr hm)] at h
          simp at h
  · intro h
    subst h
    cases n <;> rfl

theorem replaceL_head (s : List Char) :
    (replaceL oldD wwwD s).head? = some 'w' ∨
    (replaceL oldD wwwD s).head? = s.head? := by
  cases s with
  | nil => exact Or.inr rfl
  | cons c cs =>
    by_cases hm : oldD.isPrefixOf (c :: cs) = true
    · left
      rw [replaceL_pos oldD wwwD (by decide) c cs hm]
      rfl
    · right
      rw [replaceL_neg oldD wwwD c cs (Bool.eq_false_iff.mpr hm)]
      rfl

theorem replaceGo_last :
    ∀ (n : Nat) (s : List Char), s.length ≤ n →
      replaceGo oldD wwwD n s = [] ∨
      (replaceGo oldD wwwD n s).getLast? = some 'm' ∨
      (replaceGo oldD wwwD n s).getLast? = s.getLast? := by
  intro n
  induction n with
  | zero =>
    intro s hlen
    left
    have hs : s = [] := List.eq_nil_of_length_eq_zero (Nat.le_zero.mp hlen)
    subst hs
    rfl
  | succ n ih =>
    intro s hlen
    cases s with
    | nil => exact Or.inl rfl
    | cons c cs =>
      by_cases hm : oldD.isPrefixOf (c :: cs) = true
      · rw [replaceGo_old_pos n c cs hm]
        right
        have hdl : ((c :: cs).drop oldD.length).length ≤ n := by
          rw [List.length_drop]
          simp only [List.length_cons] at hlen ⊢
          have : 1 ≤ oldD.length := by decide
          omega
        rcases ih ((c :: cs).drop oldD.length) hdl with hnil | hm' | hlast
        · left
          rw [hnil, List.append_nil]
          decide
        · left
          rw [List.getLast?_append, hm']
          rfl
        · by_cases hXnil : replaceGo oldD wwwD n ((c :: cs).drop oldD.length) = []
          · left
            rw [hXnil, List.append_nil]
            decide
          · right
            have hdrop_ne : (c :: cs).drop oldD.length ≠ [] := by
              intro hd
              apply hXnil
              rw [hd]
              cases n <;> rfl
            rw [List.getLast?_append, hlast, getLast?_drop_of_ne_nil _ _ hdrop_ne]
            cases hcv : (c :: cs).getLast? with
            | none => exact absurd (List.getLast?_eq_none_iff.mp hcv) (by simp)
            | some v => rfl
      · rw [replaceGo_old_neg n c cs (Bool.eq_false_iff.mpr hm)]
        have hcs : cs.length ≤ n := by
          simp only [List.length_cons] at hlen
          omega
        by_cases hYnil : replaceGo oldD wwwD n cs = []
        · right; right
          have hcsnil : cs = [] := (replaceGo_nil_iff n cs hcs).mp hYnil
          rw [hYnil, hcsnil]
        · have h1 : (c :: replaceGo oldD wwwD n cs).getLast? =
              (replaceGo oldD wwwD n cs).getLast? := by
            rw [show c :: replaceGo oldD wwwD n cs = [c] ++ replaceGo oldD wwwD n cs from rfl,
              List.getLast?_append]
            cases hv : (replaceGo oldD wwwD n cs).getLast? with
            | none => exact absurd (List.getLast?_eq_none_iff.mp hv) hYnil
            | some v => rfl
          rcases ih cs hcs with hnil | hm' | hlast
          · exact absurd hnil hYnil
          · right; left
            rw [h1]
            exact hm'
          · right; right
            rw [h1, hlast]
            have hcsne : cs ≠ [] := by
              intro hnil2
              exact hYnil ((replaceGo_nil_iff n cs hcs).mpr hnil2)
            rw [show c :: cs = [c] ++ cs from rfl, List.getLast?_append]
            cases hv : cs.getLast? with
            | none => exact absurd (List.getLast?_eq_none_iff.mp hv) hcsne
            | some v => rfl

theorem replaceL_last (s : List Char) :
    replaceL oldD wwwD s = [] ∨
    (replaceL oldD wwwD s).getLast? = some 'm' ∨
    (replaceL oldD wwwD s).getLast? = s.getLast? :=
  replaceGo_last s.length s (Nat.le_refl _)

theorem normStep1_props (u1 : List Char) (h : noSpaceEnds u1) :
    noSpaceEnds (normStep1 u1) ∧ httpD.isPrefixOf (normStep1 u1) = false := by
  unfold normStep1
  by_cases hp : httpD.isPrefixOf u1 = true
  · rw [if_pos hp]
    constructor
    · constructor
      · intro c hc
        have hh : (httpsD ++ u1.drop httpD.length).head? = some 'h' := rfl
        rw [hh] at hc
        simp only [Option.mem_def, Option.some.injEq] at hc
        rw [← hc]
        decide
      · intro c hc
        by_cases hd : u1.drop httpD.length = []
        · rw [hd, List.append_nil] at hc
          have hl : httpsD.getLast? = some '/' := by decide
          rw [hl] at hc
          simp only [Option.mem_def, Option.some.injEq] at hc
          rw [← hc]
          decide
        · rw [List.getLast?_append, getLast?_drop_of_ne_nil _ _ hd] at hc
          cases hv : u1.getLast? with
          | none =>
            have hnil := List.getLast?_eq_none_iff.mp hv
            rw [hnil] at hd
            simp at hd
          | some v =>
            rw [hv] at hc
            simp only [Option.or_some, Option.mem_def, Option.some.injEq] at hc
            rw [← hc]
            exact h.2 v hv
    · exact http_not_prefix_https_append _
  · rw [if_neg hp]
    exact ⟨h, Bool.eq_false_iff.mpr hp⟩

theorem normStep2_props (u2 : List Char) (h1 : noSpaceEnds u2)
    (h2 : httpD.isPrefixOf u2 = false) :
    noSpaceEnds (normStep2 u2) ∧ httpD.isPrefixOf (normStep2 u2) = false ∧
    containsSub oldD (normStep2 u2) = false ∧
    (httpsD.isPrefixOf u2 = true → httpsD.isPrefixOf (normStep2 u2) = true) := by
  unfold normStep2
  by_cases hc : containsSub oldD u2 = true
  · rw [if_pos hc]
    refine ⟨⟨?_, ?_⟩, ?_, containsSub_old_replaceL u2, ?_⟩
    · intro c hcc
      rcases replaceL_head u2 with hh | hh
      · rw [hh] at hcc
        simp only [Option.mem_def, Option.some.injEq] at hcc
        rw [← hcc]
        decide
      · rw [hh] at hcc
        exact h1.1 c hcc
    · intro c hcc
      rcases replaceL_last u2 with hn | hl | hl
      · rw [hn] at hcc
        simp at hcc
      · rw [hl] at hcc
        simp only [Option.mem_def, Option.some.injEq] at hcc
        rw [← hcc]
        decide
      · rw [hl] at hcc
        exact h1.2 c hcc
    · apply Bool.eq_false_iff.mpr
      intro htrue
      have hp := prefix_through_replaceL u2 httpD (by decide)
        (List.isPrefixOf_iff_prefix.mp htrue)
      have hb := List.isPrefixOf_iff_prefix.mpr hp
      rw [h2] at hb
      simp at hb
    · intro hps
      rcases List.isPrefixOf_iff_prefix.mp hps with ⟨rest, hrest⟩
      rw [← hrest, replaceL_append_noO httpsD rest (by decide)]
      exact List.isPrefixOf_iff_prefix.mpr (List.prefix_append _ _)
  · rw [if_neg hc]
    exact ⟨h1, h2, Bool.eq_false_iff.mpr hc, fun hps => hps⟩

theorem normStep3_props (u3 : List Char) (h1 : noSpaceEnds u3)
    (h2 : httpD.isPrefixOf u3 = false) (h3 : containsSub oldD u3 = false) :
    noSpaceEnds (normStep3 u3) ∧ httpD.isPrefixOf (normStep3 u3) = false ∧
    containsSub oldD (normStep3 u3) = false ∧
    (containsSub redditD (normStep3 u3) = true →
      httpsD.isPrefixOf (normStep3 u3) = true) := by
  unfold normStep3
  by_cases hcond : (containsSub redditD u3 && ! httpsD.isPrefixOf u3) = true
  · rw [if_pos hcond]
    refine ⟨⟨?_, ?_⟩, http_not_prefix_https_append u3, ?_, ?_⟩
    · intro c hcc
      have hh : (httpsD ++ u3).head? = some 'h' := rfl
      rw [hh] at hcc
      simp only [Option.mem_def, Option.some.injEq] at hcc
      rw [← hcc]
      decide
    · intro c hcc
      by_cases hd : u3 = []
      · rw [hd, List.append_nil] at hcc
        have hl : httpsD.getLast? = some '/' := by decide
        rw [hl] at hcc
        simp only [Option.mem_def, Option.some.injEq] at hcc
        rw [← hcc]
        decide
      · rw [List.getLast?_append] at hcc
        cases hv : u3.getLast? with
        | none => exact absurd (List.getLast?_eq_none_iff.mp hv) hd
        | some v =>
          rw [hv] at hcc
          simp only [Option.or_some, Option.mem_def, Option.some.injEq] at hcc
          rw [← hcc]
          exact h1.2 v hv
    · rw [containsSub_old_https_append u3]
      exact h3
    · intro _
      exact List.isPrefixOf_iff_prefix.mpr (List.prefix_append _ _)
  · rw [if_neg hcond]
    refine ⟨h1, h2, h3, ?_⟩
    intro hred
    by_cases hB : httpsD.isPrefixOf u3 = true
    · exact hB
    · exact absurd ((Bool.and_eq_true _ _).mpr
        ⟨hred, by simp [Bool.eq_false_iff.mpr hB]⟩) hcond

theorem normList_props (u : List Char) :
    noSpaceEnds (normList u) ∧ httpD.isPrefixOf (normList u) = false ∧
    containsSub oldD (normList u) = false ∧
    (containsSub redditD (normList u) = true →
      httpsD.isPrefixOf (normList u) = true) := by
  unfold normList
  have hA := pyStrip_noSpaceEnds u
  obtain ⟨hB1, hB2⟩ := normStep1_props _ hA
  obtain ⟨hC1, hC2, hC3, _⟩ := normStep2_props _ hB1 hB2
  exact normStep3_props _ hC1 hC2 hC3

theorem normList_idem (u : List Char) : normList (normList u) = normList u := by
  obtain ⟨h1, h2, h3, h4⟩ := normList_props u
  rw [show normList (normList u) =
    normStep3 (normStep2 (normStep1 (pyStrip (normList u)))) from rfl]
  rw [pyStrip_id _ h1]
  rw [show normStep1 (normList u) = normList u from by
    unfold normStep1; rw [if_neg (by simp [h2])]]
  rw [show normStep2 (normList u) = normList u from by
    unfold normStep2; rw [if_neg (by simp [h3])]]
  unfold normStep3
  rw [if_neg]
  intro hcond
  rcases (Bool.and_eq_true _ _).mp hcond with ⟨hr, hn⟩
  rw [h4 hr] at hn
  simp at hn

/-- Claim C6: URL normalization is idempotent on every string. -/
theorem normalize_reddit_url_idempotent (u : String) :
    normalize_reddit_url (normalize_reddit_url u) = normalize_reddit_url u := by
  unfold normalize_reddit_url
  rw [show (String.mk (normList u.data)).data = normList u.data from rfl, normList_idem]

theorem pyStrip_http_prefix (u : List Char) (h : httpD.isPrefixOf u = true) :
    httpD.isPrefixOf (pyStrip u) = true := by
  rcases List.isPrefixOf_iff_prefix.mp h with ⟨rest, hrest⟩
  rw [← hrest]
  unfold pyStrip
  have hstep1 : (httpD ++ rest).dropWhile pySpace = httpD ++ rest := by
    have hh : httpD ++ rest = 'h' :: ("ttp://".data ++ rest) := by
      rw [show httpD = 'h' :: "ttp://".data from by decide]
      rfl
    rw [hh, List.dropWhile_cons, if_neg (by decide)]
  rw [hstep1, List.reverse_append, List.dropWhile_append]
  by_cases he : (rest.reverse.dropWhile pySpace).isEmpty = true
  · rw [if_pos he]
    rw [show httpD.reverse.dropWhile pySpace = httpD.reverse from by decide,
      List.reverse_reverse]
    decide
  · rw [if_neg he, List.reverse_append, List.reverse_reverse]
    exact List.isPrefixOf_iff_prefix.mpr (List.prefix_append _ _)

/-- Claim C8 (amended): normalize upgrades a leading http scheme to https,
leaves no occurrence of the legacy subdomain old.reddit.com in its result,
and guarantees the https scheme whenever the result contains reddit.com; a
scheme is not added to strings that do not mention reddit.com. -/
theorem normalize_reddit_url_transforms (u : String) :
    (httpD.isPrefixOf u.data = true →
      httpsD.isPrefixOf (normalize_reddit_url u).data = true) ∧
    containsSub oldD (normalize_reddit_url u).data = false ∧
    (containsSub redditD (normalize_reddit_url u).data = true →
      httpsD.isPrefixOf (normalize_reddit_url u).data = true) := by
  have hprops := normList_props u.data
  refine ⟨?_, hprops.2.2.1, hprops.2.2.2⟩
  intro hh
  show httpsD.isPrefixOf (normList u.data) = true
  have hstrip := pyStrip_http_prefix _ hh
  have h1 : httpsD.isPrefixOf (normStep1 (pyStrip u.data)) = true := by
    unfold normStep1
    rw [if_pos hstrip]
    exact List.isPrefixOf_iff_prefix.mpr (List.prefix_append _ _)
  obtain ⟨hB1, hB2⟩ := normStep1_props _ (pyStrip_noSpaceEnds u.data)
  obtain ⟨_, _, _, hC4⟩ := normStep2_props _ hB1 hB2
  have h2 := hC4 h1
  show httpsD.isPrefixOf (normStep3 (normStep2 (normStep1 (pyStrip u.data)))) = true
  unfold normStep3
  rw [if_neg (by
    intro hcond
    rcases (Bool.and_eq_true _ _).mp hcond with ⟨_, hn⟩
    rw [h2] at hn
    simp at hn)]
  exact h2

/-- Counterexample to claim C8 as stated: on a URL without the platform
domain, normalize does not ensure a scheme — the input comes back verbatim,
with no scheme separator anywhere in the result. -/
theorem normalize_reddit_url_no_scheme_counterexample :
    normalize_reddit_url "example.com/x" = "example.com/x" ∧
    containsSub "://".data (normalize_reddit_url "example.com/x").data = false := by
  constructor <;> decide

theorem normalize_reddit_url_transforms_witness :
    (httpD.isPrefixOf "http://old.reddit.com/comments/abc12".data = true) ∧
    ((httpD.isPrefixOf "http://old.reddit.com/comments/abc12".data = true →
       httpsD.isPrefixOf (normalize_reddit_url "http://old.reddit.com/comments/abc12").data = true) ∧
     containsSub oldD (normalize_reddit_url "http://old.reddit.com/comments/abc12").data = false ∧
     (containsSub redditD (normalize_reddit_url "http://old.reddit.com/comments/abc12").data = true →
       httpsD.isPrefixOf (normalize_reddit_url "http://old.reddit.com/comments/abc12").data = true)) :=
  ⟨by decide, normalize_reddit_url_transforms "http://old.reddit.com/comments/abc12"⟩

/-- Claim C7: is_reddit_submission_url is total and classifies a URL as a
reddit submission exactly when it parses (a urlparse ValueError is never
propagated — the except branch yields false) and the parse's netloc contains
reddit.com or redd.it while the path contains /comments/ or redd.it/. -/
theorem is_reddit_submission_url_spec (u : String) :
    (is_reddit_submission_url u = true ↔
      ∃ p : UrlParts, pyUrlparse u.data = some p ∧
        (containsSub redditD p.netloc = true ∨ containsSub reddItD p.netloc = true) ∧
        (containsSub commentsD p.path = true ∨ containsSub reddItSlashD p.path = true)) ∧
    (pyUrlparse u.data = none → is_reddit_submission_url u = false) := by
  constructor
  · unfold is_reddit_submission_url
    cases hp : pyUrlparse u.data with
    | none =>
      constructor
      · intro h
        cases h
      · rintro ⟨q, hq, _, _⟩
        cases hq
    | some p =>
      constructor
      · intro h
        rcases (Bool.and_eq_true _ _).mp h with ⟨h1, h2⟩
        exact ⟨p, rfl, (Bool.or_eq_true _ _).mp h1, (Bool.or_eq_true _ _).mp h2⟩
      · rintro ⟨q, hq, h1, h2⟩
        cases hq
        exact (Bool.and_eq_true _ _).mpr
          ⟨(Bool.or_eq_true _ _).mpr h1, (Bool.or_eq_true _ _).mpr h2⟩
  · intro hnone
    unfold is_reddit_submission_url
    rw [hnone]

theorem is_reddit_submission_url_spec_witness :
    (pyUrlparse "http://[".data = none) ∧
    is_reddit_submission_url "http://[" = false :=
  ⟨by decide, (is_reddit_submission_url_spec "http://[").2 (by decide)⟩

end DD
